import Mathlib

/-!
# bake `util/src/fs.c` : a shallow embedding

The file-system layer of bake (`src/util/src/fs.c`) is embedded as pure functions
that thread an explicit world (the file-system state plus the log of the calls
made into the C library and into the util helpers that are not part of `fs.c`).

* `Sys σ` is the interface of everything `fs.c` calls but does not define: the
  C library (`mkdir`, `remove`, `symlink`, `readlink`, `stat`, `chmod`, `opendir`,
  `fopen`, ...) and the util helpers declared in `util.h` (`ut_venvparse`,
  `ut_file_test`, `ut_path_dirname`, `ut_path_clean`, `ut_expr_*`).
* the functions named `ut_*` are translations of the functions of `fs.c`.
* `posix` is a reference instance of `Sys` over a small concrete file system `FS`,
  used to run the code on concrete states; it compares path names literally.
* `walk` is a second reference instance over the same `FS`; it resolves path names
  component by component (`.`, `..`, trailing separators, links on the way).
-/

namespace Bake

/-- C strings, as lists of characters (bytes). -/
abbrev Str := List Char

/-- The values of `errno` the code distinguishes, and a few the model can produce. -/
inductive Errno
  | ENOENT | EEXIST | ENOTDIR | ENOTEMPTY | EISDIR | EINVAL | ELOOP | EACCES | EBUSY
  deriving DecidableEq, Repr

/-- Result of a C library call: success with a value, or `-1`/`NULL` with `errno` set. -/
inductive R (α : Type)
  | ok (a : α)
  | err (e : Errno)
  deriving DecidableEq, Repr

/-- Compiled filter program handle (`ut_expr_program`), opaque to `fs.c`. -/
abbrev Prog := Nat

/-- Stream handle (`FILE*` opened for writing), opaque to `fs.c`. -/
abbrev Handle := Str

/-- What an input stream delivers to `fseek`/`ftell`/`fread` in `ut_cp_file`. -/
structure RFile where
  /-- Whether `fseek(f, 0, SEEK_END)` succeeds -/
  seekOk : Bool
  /-- the value of `ftell`, `none` for `-1` -/
  size : Option Nat
  /-- the bytes `fread` can deliver -/
  bytes : List Nat
  deriving DecidableEq, Repr

/-- One call made by `fs.c` into the C library or into a util helper, with its outcome. -/
inductive Call
  | mkdir (path : Str) (res : Option Errno)
  | remove (path : Str) (res : Option Errno)
  | nftw (path : Str)
  | symlink (target link : Str) (res : Option Errno)
  | readlink (link : Str) (bufsiz : Nat) (res : Option Str)
  | stat (path : Str) (res : Option Nat)
  | chmod (path : Str) (perm : Nat) (res : Option Errno)
  | opendir (path : Str) (ok : Bool)
  | fopenR (path : Str) (res : Option Errno)
  | fopenW (path : Str) (res : Option Errno)
  | fread (n : Nat)
  | fwrite (stream : Option Handle) (data : List Nat)
  | fileTest (path : Str) (res : Bool)
  | exprCompile (filter : Str) (res : Option Prog)
  | exprScope (prog : Option Prog)
  | exprRun (prog : Option Prog) (path : Str)
  | throw
  deriving DecidableEq, Repr

/-- Everything `fs.c` uses without defining it. `σ` is the state of the file system.
The first group is the C library, the second the util helpers declared in `util.h`,
whose sources are not in `fs.c`; all of them are parameters of the embedding. -/
structure Sys (σ : Type) where
  mkdir : σ → Str → Nat → R σ
  remove : σ → Str → R σ
  /-- the paths `nftw(name, cb, 20, FTW_DEPTH | FTW_PHYS)` visits, in order;
  `none` when `nftw` itself fails -/
  ftw_depth : σ → Str → Option (List Str)
  symlink : σ → Str → Str → R σ
  /-- the whole target stored in a symbolic link -/
  readlink : σ → Str → R Str
  /-- Field `st_mode` of `stat` -/
  stat : σ → Str → R Nat
  chmod : σ → Str → Nat → R σ
  getcwd : σ → Str
  /-- the names `readdir` delivers, in order -/
  opendir : σ → Str → R (List Str)
  fopen_rb : σ → Str → R RFile
  fopen_wb : σ → Str → R (Handle × σ)
  /-- number of bytes written and the new state -/
  fwrite : σ → Handle → List Nat → Nat × σ
  ut_venvparse : Str → Option Str
  ut_file_test : σ → Str → Bool
  ut_path_dirname : Str → Str
  ut_path_clean : Str → Str
  ut_expr_compile : Str → Option Prog
  ut_expr_scope : Option Prog → Nat
  ut_expr_run : Option Prog → Str → Bool

/-- The world threaded through the code: file-system state and the log of calls. -/
structure World (σ : Type) where
  fs : σ
  log : List Call
  deriving DecidableEq

/-- Append one call to the log. -/
def World.note {σ : Type} (w : World σ) (c : Call) : World σ :=
  { w with log := w.log ++ [c] }

/-- Outcome of running a function of `fs.c`. -/
inductive Res (σ : Type) (α : Type)
  /-- the function returned `v` -/
  | ret (v : α) (w : World σ)
  /-- the function reached undefined behaviour (a `NULL` stream or list was used) -/
  | fault (w : World σ)
  /-- the model ran out of fuel -/
  | stuck
  deriving DecidableEq

/-- The value a run returned, `none` when it did not return. -/
def Res.val {σ α : Type} : Res σ α → Option α
  | .ret v _ => some v
  | _ => none

/-- The world a run ended in, `none` when it ran out of fuel. -/
def Res.world {σ α : Type} : Res σ α → Option (World σ)
  | .ret _ w => some w
  | .fault w => some w
  | .stuck => none

section Code

variable {σ : Type} (K : Sys σ)

/-- Test `S_ISDIR(st_mode)`: `(m & S_IFMT) == S_IFDIR`, with `S_IFMT = 0170000` and
`S_IFDIR = 0040000`. -/
def S_ISDIR (m : Nat) : Bool := m / 4096 % 16 == 4

/-- Function `ut_isdir` (fs.c:429-435). -/
def ut_isdir (w : World σ) (path : Str) : Bool × World σ :=
  match K.stat w.fs path with
  | .err _ => (false, w.note (.stat path none))
  | .ok m => (S_ISDIR m, w.note (.stat path (some m)))

/-- Helper `ut_file_test`, declared in `util.h`: its result is a parameter, the call is
logged. -/
def file_test (w : World σ) (path : Str) : Bool × World σ :=
  (K.ut_file_test w.fs path, w.note (.fileTest path (K.ut_file_test w.fs path)))

/-- The C library `remove`, logged. -/
def c_remove (w : World σ) (path : Str) : Option Errno × World σ :=
  match K.remove w.fs path with
  | .ok s => (none, { fs := s, log := w.log ++ [.remove path none] })
  | .err e => (some e, w.note (.remove path (some e)))

/-- The C library `mkdir(name, 0755)`, logged. -/
def c_mkdir (w : World σ) (path : Str) : Option Errno × World σ :=
  match K.mkdir w.fs path 0o755 with
  | .ok s => (none, { fs := s, log := w.log ++ [.mkdir path none] })
  | .err e => (some e, w.note (.mkdir path (some e)))

/-- Function `ut_rmtreeCallback` (fs.c:485-501). -/
def ut_rmtreeCallback (w : World σ) (path : Str) : Int × World σ :=
  match c_remove K w path with
  | (none, w1) => (0, w1)
  | (some _, w1) => (-1, w1.note .throw)

/-- The traversal of `nftw`: the callback is run on each visited path and the walk
stops at the first non-zero return, which `nftw` returns. -/
def nftw_walk : List Str → World σ → Int × World σ
  | [], w => (0, w)
  | p :: ps, w =>
    match ut_rmtreeCallback K w p with
    | (r, w1) => if r ≠ 0 then (r, w1) else nftw_walk ps w1

/-- Function `ut_rmtree` (fs.c:504-506). -/
def ut_rmtree (w : World σ) (name : Str) : Int × World σ :=
  match K.ftw_depth w.fs name with
  | none => (-1, w.note (.nftw name))
  | some ps => nftw_walk K ps (w.note (.nftw name))

/-- Function `ut_rm` (fs.c:449-483). -/
def ut_rm (w : World σ) (name : Str) : Int × World σ :=
  match c_remove K w name with
  | (none, w1) => (0, w1)
  | (some e, w1) =>
    if e ≠ .ENOENT then
      match ut_isdir K w1 name with
      | (true, w2) => ut_rmtree K w2 name
      | (false, w2) => (-1, w2.note .throw)
    else
      (0, w1)

/-- The backward scan of `ut_mkdir` (fs.c:88-96): the copy of `name` is cut at its
last `'/'`; `none` when `name` has no `'/'` (the scan then leaves the buffer and
`ch` is read below it: the model takes that byte to differ from `'/'`). -/
def cutLastSlash : Str → Option Str
  | [] => none
  | c :: cs =>
    match cutLastSlash cs with
    | some pre => some (c :: pre)
    | none => if c = '/' then some [] else none

/-- Function `ut_mkdir` from `mkdir(name, 0755)` on (fs.c:81-123), after the name was found
absent or was removed; `self` is the recursive call `ut_mkdir(prefix)`. -/
def mkdir_create (self : World σ → Str → Res σ Int) (w : World σ) (name : Str) : Res σ Int :=
  match c_mkdir K w name with
  | (none, w3) => .ret 0 w3
  | (some e, w3) =>
    if e = .ENOENT then
      match cutLastSlash name with
      | some pre =>
        match self w3 pre with
        | .ret r w4 =>
          if r = 0 then
            match c_mkdir K w4 name with
            | (none, w5) => .ret 0 w5
            | (some e2, w5) =>
              if e2 ≠ .EEXIST then .ret (-1) (w5.note .throw) else .ret 0 w5
          else .ret (-1) (w4.note .throw)
        | .fault w4 => .fault w4
        | .stuck => .stuck
      | none => .ret (-1) (w3.note .throw)
    else if e ≠ .EEXIST then .ret (-1) (w3.note .throw)
    else .ret 0 w3

/-- Function `ut_mkdir` (fs.c:55-129). The format string is expanded by `ut_venvparse`; the
self-call passes the prefix as the format again. One unit of fuel per nested call. -/
def ut_mkdir : Nat → World σ → Str → Res σ Int
  | 0, _, _ => .stuck
  | fuel + 1, w, fmt =>
    match K.ut_venvparse fmt with
    | none => .ret (-1) w
    | some name =>
      match file_test K w name with
      | (true, w1) =>
        match ut_isdir K w1 name with
        | (false, w2) =>
          match ut_rm K w2 name with
          | (r, w3) =>
            if r ≠ 0 then .ret (-1) (w3.note .throw)
            else mkdir_create K (fun w4 pre => ut_mkdir fuel w4 pre) w3 name
        | (true, w2) => .ret 0 w2
      | (false, w1) => mkdir_create K (fun w4 pre => ut_mkdir fuel w4 pre) w1 name

/-- Function `ut_getperm` (fs.c:413-427): `-1`, or `0` and `st_mode`. -/
def ut_getperm (w : World σ) (name : Str) : Int × Nat × World σ :=
  match K.stat w.fs name with
  | .err _ => (-1, 0, (w.note (.stat name none)).note .throw)
  | .ok m => (0, m, w.note (.stat name (some m)))

/-- Function `ut_setperm` (fs.c:401-411). -/
def ut_setperm (w : World σ) (name : Str) (perm : Nat) : Int × World σ :=
  match K.chmod w.fs name perm with
  | .err e => (-1, (w.note (.chmod name perm (some e))).note .throw)
  | .ok s => (0, { fs := s, log := w.log ++ [.chmod name perm none] })

/-- Call `strrchr(src, '/')` and the choice of `base` in `ut_cp_file` (fs.c:143-144):
what follows the last `'/'`, all of `src` when it has none. -/
def baseName : Str → Str
  | [] => []
  | c :: cs => if '/' ∈ cs then baseName cs else if c = '/' then cs else c :: cs

/-- The C library `fopen(path, "rb")`, logged. -/
def c_fopenR (w : World σ) (path : Str) : Option RFile × World σ :=
  match K.fopen_rb w.fs path with
  | .ok f => (some f, w.note (.fopenR path none))
  | .err e => (none, w.note (.fopenR path (some e)))

/-- The C library `fopen(path, "wb")`, logged: the stream, or `errno`. -/
def c_fopenW (w : World σ) (path : Str) : R Handle × World σ :=
  match K.fopen_wb w.fs path with
  | .ok (h, s) => (.ok h, { fs := s, log := w.log ++ [.fopenW path none] })
  | .err e => (.err e, w.note (.fopenW path (some e)))

/-- Function `ut_cp_file` from `ut_getperm` on (fs.c:180-221); `dest` is `destinationFile`,
`none` when it is `NULL`. Writing to a `NULL` stream is undefined behaviour. -/
def cp_file_body (w : World σ) (src fullDst : Str) (rf : RFile) (dest : Option Handle) :
    Res σ Int :=
  match ut_getperm K w src with
  | (0, perm, w1) =>
    if rf.seekOk then
      match rf.size with
      | none => .ret (-1) (w1.note .throw)
      | some fileSize =>
        let buffer := rf.bytes.take fileSize
        let w2 := w1.note (.fread fileSize)
        if buffer.length ≠ fileSize then .ret (-1) (w2.note .throw)
        else
          match dest with
          | none => .fault (w2.note (.fwrite none buffer))
          | some h =>
            let wr := K.fwrite w2.fs h buffer
            let w3 : World σ := { fs := wr.2, log := w2.log ++ [.fwrite (some h) buffer] }
            if wr.1 ≠ fileSize then .ret (-1) (w3.note .throw)
            else
              match ut_setperm K w3 fullDst perm with
              | (0, w4) => .ret 0 w4
              | (_, w4) => .ret (-1) (w4.note .throw)
    else .ret (-1) (w1.note .throw)
  | (_, _, w1) => .ret (-1) (w1.note .throw)

/-- Function `ut_cp_file` from the opening of the two streams on (fs.c:153-230), for the
destination `fullDst`. `fuel` bounds the nested calls of `ut_mkdir`. -/
def cp_file_open (fuel : Nat) (w : World σ) (src fullDst : Str) : Res σ Int :=
  match c_fopenR K w src with
  | (none, w5) => .ret (-1) (w5.note .throw)
  | (some rf, w5) =>
    match c_fopenW K w5 fullDst with
    | (.ok h, w6) => cp_file_body K w6 src fullDst rf (some h)
    | (.err e, w6) =>
      if e = .ENOENT then
        if K.ut_path_dirname fullDst ≠ [] then
          match ut_mkdir K fuel w6 (K.ut_path_dirname fullDst) with
          | .ret r w7 =>
            if r = 0 then
              match c_fopenW K w7 fullDst with
              | (.ok h, w8) => cp_file_body K w8 src fullDst rf (some h)
              | (.err _, w8) => .ret (-1) w8
            else cp_file_body K (w7.note .throw) src fullDst rf none
          | .fault w7 => .fault w7
          | .stuck => .stuck
        else cp_file_body K (w6.note .throw) src fullDst rf none
      else .ret (-1) (w6.note .throw)

/-- Function `ut_cp_file` from `if (exists)` on (fs.c:149-230), for the destination `fullDst`
and the flag `exists` (`present`) computed before: an existing destination is removed
with `ut_rm`, whose result is not looked at. -/
def cp_file_to (fuel : Nat) (w : World σ) (src fullDst : Str) (present : Bool) : Res σ Int :=
  cp_file_open K fuel (if present then (ut_rm K w fullDst).2 else w) src fullDst

/-- The choice of the destination in `ut_cp_file` (fs.c:138-147): `fullDst`, the
flag `exists` and the world after the probes;
`exists && ut_isdir(dst) && !ut_isdir(src)` is evaluated left to right. -/
def cp_file_dest (w : World σ) (src dst : Str) : Str × Bool × World σ :=
  match file_test K w dst with
  | (true, w1) =>
    match ut_isdir K w1 dst with
    | (true, w2) =>
      match ut_isdir K w2 src with
      | (false, w3) =>
        match file_test K w3 (dst ++ '/' :: baseName src) with
        | (e, w4) => (dst ++ '/' :: baseName src, e, w4)
      | (true, w3) => (dst, true, w3)
    | (false, w2) => (dst, true, w2)
  | (false, w1) => (dst, false, w1)

/-- Function `ut_cp_file` (fs.c:131-230). `fuel` bounds the nested calls of `ut_mkdir`. -/
def ut_cp_file (fuel : Nat) (w : World σ) (src dst : Str) : Res σ Int :=
  cp_file_to K fuel (cp_file_dest K w src dst).2.2 src (cp_file_dest K w src dst).1
    (cp_file_dest K w src dst).2.1

/-- Function `ut_dir_hasNext` followed by `ut_dir_next` (fs.c:545-566) on the stream of names
`readdir` still has to deliver: names starting with `'.'` are skipped; the result is
the name handed to the caller and the rest of the stream, `none` at the end. -/
def ut_dir_hasNext : List Str → Option (Str × List Str)
  | [] => none
  | n :: rest => if n.head? = some '.' then ut_dir_hasNext rest else some (n, rest)

/-- The branch `!filter` of `ut_dir_iter` (fs.c:673-692) with its `name` check:
`-1`, or `0` and the open directory stream. -/
def dir_open (w : World σ) (name : Option Str) : Option (List Str) × World σ :=
  match name with
  | none => (none, w.note .throw)
  | some nm =>
    match K.opendir w.fs nm with
    | .ok stream => (some stream, w.note (.opendir nm true))
    | .err _ => (none, (w.note (.opendir nm false)).note .throw)

/-- Function `ut_dirstack_push` (fs.c:748-760); the stack is `NULL` or a list. On an empty
list `ut_ll_last` is `NULL`, which `asprintf` prints as `(null)`. -/
def ut_dirstack_push (stack : Option (List Str)) (dir : Str) : List Str :=
  match stack with
  | none => [dir]
  | some l => l ++ [(l.getLast?.getD "(null)".data) ++ '/' :: dir]

/-- Function `ut_dirstack_pop` (fs.c:762-766) on a list. -/
def ut_dirstack_pop (stack : List Str) : List Str := stack.dropLast

/-- Function `ut_dirstack_wd` (fs.c:768-772) on a list: `NULL` when it is empty. -/
def ut_dirstack_wd (stack : List Str) : Option Str := stack.getLast?

/-- The loop of `ut_cp_dir` (fs.c:253-267) over the directory stream; `self` is the
recursive call, `k` bounds the number of `ut_iter_hasNext` calls. -/
def cp_dir_loop (self : World σ → Str → Str → Res σ Int) (fuel : Nat) (dst : Str) :
    Nat → List Str → World σ → Res σ Int
  | 0, _, _ => .stuck
  | k + 1, stream, w =>
    match ut_dir_hasNext stream with
    | none => .ret 0 w
    | some (file, rest) =>
      match ut_isdir K w file with
      | (true, w1) =>
        match self w1 file (dst ++ '/' :: file) with
        | .ret r w2 => if r ≠ 0 then .ret (-1) w2 else cp_dir_loop self fuel dst k rest w2
        | .fault w2 => .fault w2
        | .stuck => .stuck
      | (false, w1) =>
        match ut_cp_file K fuel w1 file dst with
        | .ret r w2 => if r ≠ 0 then .ret (-1) w2 else cp_dir_loop self fuel dst k rest w2
        | .fault w2 => .fault w2
        | .stuck => .stuck

/-- Function `ut_cp_dir` (fs.c:232-277). One unit of fuel per nested call. -/
def ut_cp_dir : Nat → World σ → Str → Str → Res σ Int
  | 0, _, _, _ => .stuck
  | fuel + 1, w, src, dst =>
    match ut_mkdir K (fuel + 1) w dst with
    | .ret r w1 =>
      if r ≠ 0 then .ret (-1) w1
      else
        match dir_open K w1 (ut_dirstack_wd (ut_dirstack_push none src)) with
        | (none, w2) => .ret (-1) w2
        | (some stream, w2) =>
          cp_dir_loop K (fun w3 s d => ut_cp_dir fuel w3 s d) (fuel + 1) dst
            (stream.length + 1) stream w2
    | .fault w1 => .fault w1
    | .stuck => .stuck

/-- Function `ut_cp` (fs.c:279-313). -/
def ut_cp (fuel : Nat) (w : World σ) (src dst : Str) : Res σ Int :=
  match K.ut_venvparse src with
  | none => .ret (-1) w
  | some src_parsed =>
    match K.ut_venvparse dst with
    | none => .ret (-1) w
    | some dst_parsed =>
      match file_test K w src with
      | (false, w1) => .ret (-1) (w1.note .throw)
      | (true, w1) =>
        match ut_isdir K w1 src with
        | (true, w2) => ut_cp_dir K fuel w2 src_parsed dst_parsed
        | (false, w2) => ut_cp_file K fuel w2 src_parsed dst_parsed

/-- Call `readlink(link, buf, bufsiz)`: at most `bufsiz` bytes of the stored target are
placed in the buffer and their number is returned; `none` for `-1`. -/
def c_readlink (w : World σ) (link : Str) (bufsiz : Nat) : Option Str × World σ :=
  match K.readlink w.fs link with
  | .ok t =>
    if bufsiz = 0 then (none, w.note (.readlink link bufsiz none))
    else (some (t.take bufsiz), w.note (.readlink link bufsiz (some (t.take bufsiz))))
  | .err _ => (none, w.note (.readlink link bufsiz none))

/-- Function `ut_checklink` (fs.c:315-342): `readlink` is given room for `strlen(file)`
bytes. -/
def ut_checklink (w : World σ) (link file : Str) : Bool × World σ :=
  match c_readlink K w link file.length with
  | (none, w1) => (false, w1)
  | (some buf, w1) =>
    if buf.length ≠ file.length then (false, w1)
    else if file.take file.length ≠ buf.take file.length then (false, w1)
    else (true, w1)

/-- The C library `symlink(target, linkpath)`, logged. -/
def c_symlink (w : World σ) (target link : Str) : Option Errno × World σ :=
  match K.symlink w.fs target link with
  | .ok s => (none, { fs := s, log := w.log ++ [.symlink target link none] })
  | .err e => (some e, w.note (.symlink target link (some e)))

/-- The target `ut_symlink` links to (fs.c:348-355): a relative `oldname` is put
below `ut_cwd()` and cleaned. -/
def fullName (s : σ) (oldname : Str) : Str :=
  match oldname with
  | '/' :: _ => oldname
  | _ => K.ut_path_clean (K.getcwd s ++ '/' :: oldname)

/-- Function `ut_symlink` (fs.c:344-399). One unit of fuel per nested call. -/
def ut_symlink : Nat → World σ → Str → Str → Res σ Int
  | 0, _, _, _ => .stuck
  | fuel + 1, w, oldname, newname =>
    match c_symlink K w (fullName K w.fs oldname) newname with
    | (none, w1) => .ret 0 w1
    | (some e, w1) =>
      if e = .ENOENT then
        if K.ut_path_dirname newname ≠ [] then
          match ut_mkdir K (fuel + 1) w1 (K.ut_path_dirname newname) with
          | .ret r w2 =>
            if r = 0 then
              match ut_symlink fuel w2 (fullName K w.fs oldname) newname with
              | .ret r2 w3 => if r2 ≠ 0 then .ret (-1) (w3.note .throw) else .ret 0 w3
              | .fault w3 => .fault w3
              | .stuck => .stuck
            else .ret 0 (w2.note .throw)
          | .fault w2 => .fault w2
          | .stuck => .stuck
        else .ret 0 (w1.note .throw)
      else if e = .EEXIST then
        match ut_checklink K w1 newname (fullName K w.fs oldname) with
        | (false, w2) =>
          match ut_rm K w2 newname with
          | (r, w3) =>
            if r ≠ 0 then .ret (-1) (w3.note .throw)
            else
              match ut_symlink fuel w3 (fullName K w.fs oldname) newname with
              | .ret r2 w4 => if r2 ≠ 0 then .ret (-1) (w4.note .throw) else .ret 0 w4
              | .fault w4 => .fault w4
              | .stuck => .stuck
        | (true, w2) => .ret 0 w2
      else .ret 0 w1

/-- The loop of `ut_dir_collectRecursive` (fs.c:638-654). `self` is the recursive
call, `k` bounds the number of `ut_iter_hasNext` calls, `stack` is the shared
directory stack (not `NULL` here) and `files` the result list. The outcome is the
value the function is about to return (`0` at the end of the stream, `-1` for
`goto error`), with the stack and the list as they are then. -/
def collect_loop
    (self : World σ → Str → List Str → List Str → Res σ (Int × Option (List Str) × List Str))
    (filter : Option Prog) :
    Nat → List Str → World σ → List Str → List Str → Res σ (Int × List Str × List Str)
  | 0, _, _, _, _ => .stuck
  | k + 1, stream, w, stack, files =>
    match ut_dir_hasNext stream with
    | none => .ret (0, stack, files) w
    | some (file, rest) =>
      let path := K.ut_path_clean ((((ut_dirstack_wd stack).getD "(null)".data)) ++ '/' :: file)
      let w1 := w.note (.exprRun filter path)
      let files1 := if K.ut_expr_run filter path then files ++ [path] else files
      match ut_isdir K w1 path with
      | (true, w2) =>
        match self w2 file stack files1 with
        | .ret (r, some stack2, files2) w3 =>
          if r ≠ 0 then .ret (-1, stack2, files2) w3
          else collect_loop self filter k rest w3 stack2 files2
        | .ret (_, none, _) w3 => .fault w3
        | .fault w3 => .fault w3
        | .stuck => .stuck
      | (false, w2) => collect_loop self filter k rest w2 stack files1

/-- Function `ut_dir_collectRecursive` (fs.c:617-665). `name` and `stack` may be `NULL`
(`none`). The result is the return value, the directory stack as the call leaves it
and the list `files`. Reading the working directory of a `NULL` stack is a fault.
One unit of fuel per nested call. -/
def ut_dir_collectRecursive :
    Nat → World σ → Option Str → Option (List Str) → Option Prog → List Str →
      Res σ (Int × Option (List Str) × List Str)
  | 0, _, _, _, _, _ => .stuck
  | fuel + 1, w, name, stack, filter, files =>
    -- `name && name[0]`
    let moved : Bool := match name with
      | some (_ :: _) => true
      | _ => false
    let stack1 : Option (List Str) :=
      if moved then some (ut_dirstack_push stack (name.getD [])) else stack
    match stack1 with
    | none => .fault w
    | some l =>
      match dir_open K w (ut_dirstack_wd l) with
      | (none, w1) => .ret (-1, some (ut_dirstack_pop l), files) w1
      | (some stream, w1) =>
        match collect_loop K
            (fun w2 file st fs => ut_dir_collectRecursive fuel w2 (some file) (some st) filter fs)
            filter (stream.length + 1) stream w1 l files with
        | .ret (r, l2, files2) w3 =>
          if r ≠ 0 then .ret (-1, some (ut_dirstack_pop l2), files2) w3
          else if moved then .ret (0, some (ut_dirstack_pop l2), files2) w3
          else .ret (0, some l2, files2) w3
        | .fault w3 => .fault w3
        | .stuck => .stuck

/-- The three kinds of iterator `ut_dir_iter` hands out, by the functions stored in
them: `ut_dir_hasNext`, `ut_dir_hasNextFilter`, and the list iterator over the
collected paths. -/
inductive Iter
  | dir (stream : List Str)
  | filtered (program : Option Prog) (stream : List Str)
  | list (files : List Str)
  deriving DecidableEq, Repr

/-- Function `ut_dir_hasNextFilter` followed by `ut_dir_next` (fs.c:568-584). -/
def ut_dir_hasNextFilter (program : Option Prog) :
    List Str → World σ → Option (Str × List Str) × World σ
  | [], w => (none, w)
  | n :: rest, w =>
    if n.head? = some '.' then ut_dir_hasNextFilter program rest w
    else if K.ut_expr_run program n then (some (n, rest), w.note (.exprRun program n))
    else ut_dir_hasNextFilter program rest (w.note (.exprRun program n))

/-- Function `ut_dir_iter` (fs.c:668-733). The result is the return value and what was stored
in `*it_out` (`none` when the function did not write it). -/
def ut_dir_iter (fuel : Nat) (w : World σ) (name filter : Option Str) :
    Res σ (Int × Option Iter) :=
  match name with
  | none => .ret (-1, none) (w.note .throw)
  | some nm =>
    match filter with
    | none =>
      match dir_open K w (some nm) with
      | (some stream, w1) => .ret (0, some (.dir stream)) w1
      | (none, w1) => .ret (-1, none) w1
    | some f =>
      let program := K.ut_expr_compile f
      let w1 := (w.note (.exprCompile f program)).note (.exprScope program)
      if K.ut_expr_scope program = 2 then
        match ut_dir_collectRecursive K fuel w1 (some nm) none program [] with
        | .ret (r, _, files) w2 =>
          if r ≠ 0 then .ret (-1, none) (w2.note .throw)
          else .ret (0, some (.list files)) w2
        | .fault w2 => .fault w2
        | .stuck => .stuck
      else
        match K.opendir w1.fs nm with
        | .ok stream => .ret (0, some (.filtered program stream)) (w1.note (.opendir nm true))
        | .err _ => .ret (-1, none) ((w1.note (.opendir nm false)).note .throw)

end Code

/-! ## A reference instance of `Sys`

A small file system: a table from absolute path strings to nodes, in creation
order. Paths are compared literally (`.`, `..`, doubled and trailing separators are
not interpreted, and entries below a symbolic link to a directory are looked up
under the link's own name); a relative path is taken below `cwd`. Permission
checks are left out. -/

/-- A file-system node. -/
inductive Node
  | dir (mode : Nat)
  | file (content : List Nat) (mode : Nat)
  | link (target : Str)
  deriving DecidableEq, Repr

/-- State of the reference file system. The root directory is the key `[]`. -/
structure FS where
  cwd : Str
  ents : List (Str × Node)
  deriving DecidableEq, Repr

/-- First entry stored under a key. -/
def lookupEnt : List (Str × Node) → Str → Option Node
  | [], _ => none
  | (k, n) :: es, q => if k = q then some n else lookupEnt es q

/-- Absolute form of a path: a relative path is taken below the working directory. -/
def FS.abs (fs : FS) (p : Str) : Str :=
  match p with
  | '/' :: _ => p
  | _ => fs.cwd ++ '/' :: p

/-- The node stored at an absolute path (`lstat`); the root always exists. -/
def FS.get (fs : FS) (q : Str) : Option Node :=
  if q = [] ∨ q = ['/'] then some (.dir 0o755) else lookupEnt fs.ents q

/-- Where a symbolic link stored at `q` with target `t` points. -/
def linkTarget (q t : Str) : Str :=
  match t with
  | '/' :: _ => t
  | _ =>
    match cutLastSlash q with
    | some d => d ++ '/' :: t
    | none => t

/-- Follow symbolic links at the final component (at most `n` of them). -/
def FS.resolve : Nat → FS → Str → R (Str × Node)
  | 0, _, _ => .err .ELOOP
  | n + 1, fs, q =>
    match fs.get q with
    | none => .err .ENOENT
    | some (.link t) => FS.resolve n fs (linkTarget q t)
    | some nd => .ok (q, nd)

/-- The directory part of an absolute path must name a directory. -/
def FS.parentOK (fs : FS) (q : Str) : Option Errno :=
  match cutLastSlash q with
  | none => some .ENOENT
  | some d =>
    match fs.resolve 40 d with
    | .ok (_, .dir _) => none
    | .ok _ => some .ENOTDIR
    | .err e => some e

/-- Function `dropPrefix a k`: `k` without its prefix `a`, when `a` is a prefix of `k`. -/
def dropPrefix : Str → Str → Option Str
  | [], k => some k
  | _ :: _, [] => none
  | a :: as, b :: bs => if a = b then dropPrefix as bs else none

/-- The name of `k` as a direct child of the directory `key`. -/
def childName (key k : Str) : Option Str :=
  match dropPrefix (key ++ ['/']) k with
  | some nm => if nm ≠ [] ∧ '/' ∉ nm then some nm else none
  | none => none

/-- Replace the node stored under a key. -/
def setEnt (ents : List (Str × Node)) (key : Str) (nd : Node) : List (Str × Node) :=
  ents.map (fun e => if e.1 = key then (key, nd) else e)

/-- Call `mkdir(2)`. -/
def FS.mkdir (fs : FS) (p : Str) (mode : Nat) : R FS :=
  if p = [] then .err .ENOENT
  else if (fs.get (fs.abs p)).isSome then .err .EEXIST
  else
    match fs.parentOK (fs.abs p) with
    | some e => .err e
    | none => .ok { fs with ents := fs.ents ++ [(fs.abs p, .dir mode)] }

/-- Call `remove(3)`: `unlink` for files and links, `rmdir` for directories. -/
def FS.remove (fs : FS) (p : Str) : R FS :=
  if p = [] then .err .ENOENT
  else
    match fs.get (fs.abs p) with
    | none =>
      match fs.parentOK (fs.abs p) with
      | some e => .err e
      | none => .err .ENOENT
    | some (.dir _) =>
      if fs.abs p = ['/'] then .err .EBUSY
      else if fs.ents.any (fun e => (dropPrefix (fs.abs p ++ ['/']) e.1).isSome) then
        .err .ENOTEMPTY
      else .ok { fs with ents := fs.ents.filter (fun e => e.1 ≠ fs.abs p) }
    | some _ => .ok { fs with ents := fs.ents.filter (fun e => e.1 ≠ fs.abs p) }

/-- The visiting order of `nftw` with `FTW_DEPTH | FTW_PHYS`: what lies below `name`
(later entries first) and then `name` itself; links are not followed. -/
def FS.ftw_depth (fs : FS) (name : Str) : Option (List Str) :=
  match fs.get (fs.abs name) with
  | none => none
  | some (.dir _) =>
    some ((fs.ents.filterMap (fun e =>
      (dropPrefix (fs.abs name ++ ['/']) e.1).map (fun rest => name ++ '/' :: rest))).reverse
      ++ [name])
  | some _ => some [name]

/-- Call `symlink(2)`. -/
def FS.symlink (fs : FS) (target p : Str) : R FS :=
  if p = [] ∨ target = [] then .err .ENOENT
  else if (fs.get (fs.abs p)).isSome then .err .EEXIST
  else
    match fs.parentOK (fs.abs p) with
    | some e => .err e
    | none => .ok { fs with ents := fs.ents ++ [(fs.abs p, .link target)] }

/-- The target stored in a symbolic link (`readlink(2)` with a large enough buffer). -/
def FS.readlink (fs : FS) (p : Str) : R Str :=
  if p = [] then .err .ENOENT
  else
    match fs.get (fs.abs p) with
    | some (.link t) => .ok t
    | some _ => .err .EINVAL
    | none => .err .ENOENT

/-- Field `st_mode` of a node: file type bits plus permission bits. -/
def Node.st_mode : Node → Nat
  | .dir m => 0o040000 + m % 4096
  | .file _ m => 0o100000 + m % 4096
  | .link _ => 0o120000 + 0o777

/-- Call `stat(2)`: follows symbolic links. -/
def FS.stat (fs : FS) (p : Str) : R Nat :=
  if p = [] then .err .ENOENT
  else
    match fs.resolve 40 (fs.abs p) with
    | .ok (_, nd) => .ok nd.st_mode
    | .err e => .err e

/-- Call `chmod(2)`: follows symbolic links, keeps the permission bits of `perm`. -/
def FS.chmod (fs : FS) (p : Str) (perm : Nat) : R FS :=
  if p = [] then .err .ENOENT
  else
    match fs.resolve 40 (fs.abs p) with
    | .ok (key, .dir _) => .ok { fs with ents := setEnt fs.ents key (.dir (perm % 4096)) }
    | .ok (key, .file c _) => .ok { fs with ents := setEnt fs.ents key (.file c (perm % 4096)) }
    | .ok (_, .link _) => .err .ELOOP
    | .err e => .err e

/-- Call `opendir(3)` and the names `readdir(3)` then delivers. -/
def FS.opendir (fs : FS) (p : Str) : R (List Str) :=
  if p = [] then .err .ENOENT
  else
    match fs.resolve 40 (fs.abs p) with
    | .ok (key, .dir _) =>
      .ok (['.'] :: ['.', '.'] :: fs.ents.filterMap (fun e => childName key e.1))
    | .ok _ => .err .ENOTDIR
    | .err e => .err e

/-- Call `fopen(path, "rb")`; the model refuses to open a directory as a stream. -/
def FS.fopen_rb (fs : FS) (p : Str) : R RFile :=
  if p = [] then .err .ENOENT
  else
    match fs.resolve 40 (fs.abs p) with
    | .ok (_, .file c _) => .ok { seekOk := true, size := some c.length, bytes := c }
    | .ok _ => .err .EISDIR
    | .err e => .err e

/-- Final component of `fopen(path, "wb")`: links are followed, also dangling ones. -/
def FS.openW : Nat → FS → Str → R (Handle × FS)
  | 0, _, _ => .err .ELOOP
  | n + 1, fs, q =>
    match fs.get q with
    | some (.link t) => FS.openW n fs (linkTarget q t)
    | some (.dir _) => .err .EISDIR
    | some (.file _ m) => .ok (q, { fs with ents := setEnt fs.ents q (.file [] m) })
    | none =>
      match fs.parentOK q with
      | some e => .err e
      | none => .ok (q, { fs with ents := fs.ents ++ [(q, .file [] 0o644)] })

/-- Call `fopen(path, "wb")`: creates or truncates the file. -/
def FS.fopen_wb (fs : FS) (p : Str) : R (Handle × FS) :=
  if p = [] then .err .ENOENT else FS.openW 40 fs (fs.abs p)

/-- Call `fwrite`: the bytes are appended to the file behind the stream. -/
def FS.fwrite (fs : FS) (h : Handle) (data : List Nat) : Nat × FS :=
  match lookupEnt fs.ents h with
  | some (.file c m) => (data.length, { fs with ents := setEnt fs.ents h (.file (c ++ data) m) })
  | _ => (data.length, fs)

/-- Components of a path between the separators. -/
def splitSlash : Str → List Str
  | [] => [[]]
  | c :: cs =>
    if c = '/' then [] :: splitSlash cs
    else
      match splitSlash cs with
      | [] => [[c]]
      | h :: t => (c :: h) :: t

/-- Modelled from the spec: `ut_path_clean` is declared in `util.h`; the spec says the
clean form "has no redundant separators, `.` or unresolved trailing slashes". -/
def path_clean (p : Str) : Str :=
  let body := List.intercalate ['/']
    ((splitSlash p).filter (fun s => s ≠ [] ∧ s ≠ ['.']))
  match p with
  | '/' :: _ => '/' :: body
  | _ => body

/-- Modelled from the spec: `ut_path_dirname` is declared in `util.h`; the spec says
it "returns the parent segment"; a path without separator has an empty one. -/
def path_dirname (p : Str) : Str :=
  match cutLastSlash p with
  | some d => d
  | none => []

/-- Modelled from the spec: `ut_file_test` is declared in `util.h` (the spec's
`exists(path)`): the path can be opened, symbolic links followed. -/
def FS.file_test (fs : FS) (p : Str) : Bool :=
  match fs.stat p with
  | .ok _ => true
  | .err _ => false

/-- Whether a string ends with `.txt`. -/
def endsTxt (p : Str) : Bool := (p.reverse.take 4).reverse == ".txt".data

/-- Modelled from the spec: the filter compiler is an external capability
(`compile`, `run`, `scope`). The instance knows three patterns: `*` (program 1, one
level), `//*` (program 2, whole subtree) and `//*.txt` (program 3, whole subtree);
every other string fails to compile. -/
def expr_compile (f : Str) : Option Prog :=
  if f = "*".data then some 1
  else if f = "//*".data then some 2
  else if f = "//*.txt".data then some 3
  else none

/-- Scope of a compiled program: `2` is the recursive scope. -/
def expr_scope : Option Prog → Nat
  | some 2 => 2
  | some 3 => 2
  | some _ => 1
  | none => 0

/-- Run a compiled program on a path. -/
def expr_run : Option Prog → Str → Bool
  | some 3, p => endsTxt p
  | some _, _ => true
  | none, _ => false

/-- The reference instance, for a given expansion `env` of format strings
(`ut_venvparse`, declared in `util.h`). -/
def posixEnv (env : Str → Option Str) : Sys FS where
  mkdir := FS.mkdir
  remove := FS.remove
  ftw_depth := FS.ftw_depth
  symlink := FS.symlink
  readlink := FS.readlink
  stat := FS.stat
  chmod := FS.chmod
  getcwd := FS.cwd
  opendir := FS.opendir
  fopen_rb := FS.fopen_rb
  fopen_wb := FS.fopen_wb
  fwrite := FS.fwrite
  ut_venvparse := env
  ut_file_test := FS.file_test
  ut_path_dirname := path_dirname
  ut_path_clean := path_clean
  ut_expr_compile := expr_compile
  ut_expr_scope := expr_scope
  ut_expr_run := expr_run

/-- The reference instance with an environment that expands nothing: every format
string stands for itself. -/
def posix : Sys FS := posixEnv some

/-! ## A second reference instance: path names are walked

The instance `posix` compares path names literally. The instance `walk` resolves them
component by component from the root, the way `path_resolution(7)` describes: an
empty component or `.` stays where it is, `..` goes to the parent directory, and
every other component but the last must lead to a directory (symbolic links are
followed). The table operations of `FS` are then applied to the entry that was found. -/

/-- How a path name ends: with an ordinary component (`name`), with an ordinary
component followed by separators (`slash`), with `.` or `..`, or with nothing but
the root. -/
inductive Last
  | name | slash | dot | dotdot | root
  deriving DecidableEq, Repr

/-- The key of a directory as the walk carries it (the root is `[]`). -/
def dirKey (k : Str) : Str := if k = ['/'] then [] else k

/-- The path under which the table operations know a key (the root is `/`). -/
def keyPath (k : Str) : Str := if k = [] then ['/'] else k

/-- Walk the components `cs` from the directory with key `cur`; each must lead to a
directory. -/
def FS.walkDir (fs : FS) : Str → List Str → R Str
  | cur, [] => .ok cur
  | cur, c :: cs =>
    if c = ['.'] then FS.walkDir fs cur cs
    else if c = ['.', '.'] then FS.walkDir fs (path_dirname cur) cs
    else
      match fs.resolve 40 (cur ++ '/' :: c) with
      | .ok (key, .dir _) => FS.walkDir fs (dirKey key) cs
      | .ok _ => .err .ENOTDIR
      | .err e => .err e

/-- The entry a path name leads to: its key in the table and how the name ends. A
symbolic link at the last component is not followed here. -/
def FS.locate (fs : FS) (p : Str) : R (Str × Last) :=
  if p = [] then .err .ENOENT
  else
    match ((splitSlash (fs.abs p)).filter (fun c => c ≠ [])).getLast? with
    | none => .ok ([], .root)
    | some l =>
      match fs.walkDir [] ((splitSlash (fs.abs p)).filter (fun c => c ≠ [])).dropLast with
      | .err e => .err e
      | .ok cur =>
        if l = ['.'] then .ok (cur, .dot)
        else if l = ['.', '.'] then .ok (path_dirname cur, .dotdot)
        else .ok (cur ++ '/' :: l, if p.getLast? = some '/' then .slash else .name)

/-- Apply an operation that follows symbolic links to the entry a path leads to; a
name that ends in a separator must lead to a directory. -/
def FS.onEntry {α : Type} (fs : FS) (p : Str) (op : Str → R α) : R α :=
  match fs.locate p with
  | .err e => .err e
  | .ok (k, .slash) =>
    match fs.stat (keyPath k) with
    | .ok m => if S_ISDIR m then op (keyPath k) else .err .ENOTDIR
    | .err e => .err e
  | .ok (k, _) => op (keyPath k)

/-- Call `mkdir(2)` on a walked path: a name ending in `.` or `..` exists already. -/
def FS.walk_mkdir (fs : FS) (p : Str) (mode : Nat) : R FS :=
  match fs.locate p with
  | .err e => .err e
  | .ok (k, .name) => fs.mkdir k mode
  | .ok (k, .slash) => fs.mkdir k mode
  | .ok _ => .err .EEXIST

/-- Call `remove(3)` on a walked path: `rmdir` refuses `.` with `EINVAL` and `..` with
`ENOTEMPTY`. -/
def FS.walk_remove (fs : FS) (p : Str) : R FS :=
  match fs.locate p with
  | .err e => .err e
  | .ok (k, .name) => fs.remove k
  | .ok (k, .slash) =>
    match fs.get k with
    | some (.dir _) => fs.remove k
    | some _ => .err .ENOTDIR
    | none => .err .ENOENT
  | .ok (_, .dot) => .err .EINVAL
  | .ok (_, .dotdot) => .err .ENOTEMPTY
  | .ok (_, .root) => .err .EBUSY

/-- A path name without its trailing separators; of a name made of separators only
the first is kept (`ftw.c` of glibc strips them before the walk starts). -/
def stripSlashes (p : Str) : Str :=
  match (p.reverse.dropWhile (fun c => c == '/')).reverse with
  | [] => p.take 1
  | r => r

/-- The visiting order of `nftw` with `FTW_DEPTH | FTW_PHYS` on a walked path: the
start path is taken without its trailing separators, and every path reported is the
start path followed by the way down from it. -/
def FS.walk_ftw_depth (fs : FS) (name : Str) : Option (List Str) :=
  match fs.locate (stripSlashes name) with
  | .err _ => none
  | .ok (k, _) =>
    match fs.get (keyPath k) with
    | none => none
    | some (.dir _) =>
      some ((fs.ents.filterMap (fun e =>
        (dropPrefix (k ++ ['/']) e.1).map (fun rest => stripSlashes name ++ '/' :: rest))).reverse
        ++ [stripSlashes name])
    | some _ => some [stripSlashes name]

/-- Call `symlink(2)` on a walked path. -/
def FS.walk_symlink (fs : FS) (target p : Str) : R FS :=
  match fs.locate p with
  | .err e => .err e
  | .ok (k, .name) => fs.symlink target k
  | .ok (k, .slash) => if (fs.get k).isSome then .err .EEXIST else .err .ENOENT
  | .ok _ => .err .EEXIST

/-- Call `readlink(2)` on a walked path. -/
def FS.walk_readlink (fs : FS) (p : Str) : R Str :=
  match fs.locate p with
  | .err e => .err e
  | .ok (k, .name) => fs.readlink k
  | .ok _ => .err .EINVAL

/-- Call `fopen(path, "wb")` on a walked path. -/
def FS.walk_fopen_wb (fs : FS) (p : Str) : R (Handle × FS) :=
  match fs.locate p with
  | .err e => .err e
  | .ok (k, .name) => fs.fopen_wb k
  | .ok (k, .slash) => if (fs.get k).isSome then .err .EISDIR else .err .ENOENT
  | .ok _ => .err .EISDIR

/-- Modelled from the spec: `ut_file_test` is declared in `util.h` (the spec's
`exists(path)`): the walked path can be opened, symbolic links followed. -/
def FS.walk_file_test (fs : FS) (p : Str) : Bool :=
  match fs.onEntry p fs.stat with
  | .ok _ => true
  | .err _ => false

/-- The reference instance over walked path names, for an expansion `env` of format
strings. -/
def walkEnv (env : Str → Option Str) : Sys FS where
  mkdir := FS.walk_mkdir
  remove := FS.walk_remove
  ftw_depth := FS.walk_ftw_depth
  symlink := FS.walk_symlink
  readlink := FS.walk_readlink
  stat := fun fs p => fs.onEntry p fs.stat
  chmod := fun fs p perm => fs.onEntry p (fun q => fs.chmod q perm)
  getcwd := FS.cwd
  opendir := fun fs p => fs.onEntry p fs.opendir
  fopen_rb := fun fs p => fs.onEntry p fs.fopen_rb
  fopen_wb := FS.walk_fopen_wb
  fwrite := FS.fwrite
  ut_venvparse := env
  ut_file_test := FS.walk_file_test
  ut_path_dirname := path_dirname
  ut_path_clean := path_clean
  ut_expr_compile := expr_compile
  ut_expr_scope := expr_scope
  ut_expr_run := expr_run

/-- The walking instance with an environment that expands nothing. -/
def walk : Sys FS := walkEnv some

/-! ## Directory trees, for the recursive listing -/

/-- The content of a directory, in listing order: each entry is a plain entry
(`file`) or a directory with its own content (`dir`), followed by the later entries. -/
inductive Listing
  | nil
  | file (name : Str) (rest : Listing)
  | dir (name : Str) (kids : Listing) (rest : Listing)
  deriving DecidableEq, Repr

/-- The names `readdir` delivers for a directory with this content. -/
def Listing.names : Listing → List Str
  | .nil => []
  | .file n rest => n :: rest.names
  | .dir n _ rest => n :: rest.names

/-- Nesting depth of the directories of a listing. -/
def Listing.depth : Listing → Nat
  | .nil => 0
  | .file _ rest => rest.depth
  | .dir _ kids rest => max (kids.depth + 1) rest.depth

/-- A name that `ut_dir_hasNext` skips: its first character is `'.'`. -/
def dotted (n : Str) : Bool := n.head? = some '.'

/-- What `ut_isdir` answers for a path in state `s`. -/
def isDirAt {σ : Type} (K : Sys σ) (s : σ) (path : Str) : Bool :=
  match K.stat s path with
  | .ok m => S_ISDIR m
  | .err _ => false

/-- The state `s` shows the entries `L` below the directory path `p`, as far as the
recursive walk looks: an entry whose name is not dotted is a directory exactly when the
listing says so (its type is the one `stat` reports for the cleaned path `p/name`),
and a directory entry has a non-empty name and opens (under the path `p/name`) with
the names of its own content, which `s` shows in turn. -/
def Shows {σ : Type} (K : Sys σ) (s : σ) : Str → Listing → Prop
  | _, .nil => True
  | p, .file n rest =>
    (dotted n = true ∨ isDirAt K s (K.ut_path_clean (p ++ '/' :: n)) = false) ∧ Shows K s p rest
  | p, .dir n kids rest =>
    (dotted n = true ∨
      (n ≠ [] ∧ isDirAt K s (K.ut_path_clean (p ++ '/' :: n)) = true
        ∧ K.opendir s (p ++ '/' :: n) = .ok kids.names ∧ Shows K s (p ++ '/' :: n) kids))
      ∧ Shows K s p rest

/-- The tree with content `L` is found at the directory path `name` in state `s`. -/
def Rooted {σ : Type} (K : Sys σ) (s : σ) (name : Str) (L : Listing) : Prop :=
  K.opendir s name = .ok L.names ∧ Shows K s name L

/-- Depth-first pre-order reference of the recursive listing below the directory path
`p`: entries in listing order; a dotted entry is left out together with everything
below it; the cleaned path of any other entry is listed when it passes `keep`, and,
for a directory, is followed by the listing of its content whether or not it passed. -/
def Listing.preorder (clean : Str → Str) (keep : Str → Bool) : Str → Listing → List Str
  | _, .nil => []
  | p, .file n rest =>
    (if dotted n then []
     else if keep (clean (p ++ '/' :: n)) then [clean (p ++ '/' :: n)] else [])
      ++ Listing.preorder clean keep p rest
  | p, .dir n kids rest =>
    (if dotted n then []
     else (if keep (clean (p ++ '/' :: n)) then [clean (p ++ '/' :: n)] else [])
            ++ Listing.preorder clean keep (p ++ '/' :: n) kids)
      ++ Listing.preorder clean keep p rest

/-- The listing as the claim words it: the cleaned paths of all entries of the whole
subtree whose own name is not dotted and whose cleaned path passes `keep`, a
directory before its descendants. -/
def Listing.wholeSubtree (clean : Str → Str) (keep : Str → Bool) : Str → Listing → List Str
  | _, .nil => []
  | p, .file n rest =>
    (if dotted n then []
     else if keep (clean (p ++ '/' :: n)) then [clean (p ++ '/' :: n)] else [])
      ++ Listing.wholeSubtree clean keep p rest
  | p, .dir n kids rest =>
    (if dotted n then []
     else if keep (clean (p ++ '/' :: n)) then [clean (p ++ '/' :: n)] else [])
      ++ Listing.wholeSubtree clean keep (p ++ '/' :: n) kids
      ++ Listing.wholeSubtree clean keep p rest

/-! ## Log bookkeeping and the effective destination of a file copy -/

/-- A call that, if it opens a stream for writing, opens the path `q`. -/
def OnlyOpens (q : Str) (c : Call) : Prop := ∀ p r, c = .fopenW p r → p = q

/-- The log of `wf` extends the log of `w` by the calls `ext`. -/
def Extends {σ : Type} (w wf : World σ) (ext : List Call) : Prop := wf.log = w.log ++ ext

/-- The log of `wf` extends the log of `w`, and no added call opens for writing a
path other than `q`. -/
def Grows {σ : Type} (q : Str) (w wf : World σ) : Prop :=
  ∃ ext, Extends w wf ext ∧ ∀ c ∈ ext, OnlyOpens q c

/-- The effective destination of a file copy in the spec's words: `dst/basename(src)`
if `dst` is an existing directory and `src` is not, else `dst`. -/
def effectiveDst {σ : Type} (K : Sys σ) (s : σ) (src dst : Str) : Str :=
  if K.ut_file_test s dst = true ∧ isDirAt K s dst = true ∧ isDirAt K s src = false then
    dst ++ '/' :: baseName src
  else dst

/-! ## A file copy into a directory: what is left alone -/

/-- The path `p` is `e` or a path below it (`e/...`). -/
def AtOrBelow (e p : Str) : Prop := p = e ∨ e ++ ['/'] <+: p

/-- A call that leaves everything but `e` and what lies below it alone: a `remove`
is on `e` or on a path below it, and a stream is opened for writing only on `e`. -/
def Tame (e : Str) (c : Call) : Prop :=
  (∀ p r, c = .remove p r → AtOrBelow e p) ∧ (∀ p r, c = .fopenW p r → p = e)

/-- The state `s` has the working directory `cwd` and a directory under the key `k`. -/
def KeepsDir (cwd k : Str) (s : FS) : Prop :=
  s.cwd = cwd ∧ ∃ m, s.get k = some (.dir m)

/-- The world `wf` comes after `w`: it still has the directory `k`, and every call
added to the log is tame. -/
def Spares (cwd k e : Str) (w wf : World FS) : Prop :=
  KeepsDir cwd k wf.fs ∧ ∃ ext, wf.log = w.log ++ ext ∧ ∀ c ∈ ext, Tame e c

/-- The path `first/s2/.../sn` for `more = [s2, ..., sn]`. -/
def joinPath (first : Str) (more : List Str) : Str :=
  more.foldl (fun acc s => acc ++ '/' :: s) first

/-- The prefixes `first`, `first/s2`, ..., `first/s2/.../sn` of that path, shortest
first. -/
def prefixPaths (first : Str) : List Str → List Str
  | [] => [first]
  | s :: more => first :: prefixPaths (first ++ '/' :: s) more

/-- The state `fs` with the directories `ps` created with mode `0755`, in that order. -/
def FS.withDirs (fs : FS) (ps : List Str) : FS :=
  { fs with ents := fs.ents ++ ps.map (fun p => (fs.abs p, Node.dir 0o755)) }

/-- The directories created in a log: the paths of the successful `mkdir` calls, in
the order of the calls. -/
def createdDirs : List Call → List Str
  | [] => []
  | .mkdir p none :: l => p :: createdDirs l
  | _ :: l => createdDirs l

/-! ## Example states -/

/-- Working directory `/w` holding a file `a.txt` and `l`, a symbolic link to
`/nowhere/x`, where `/nowhere` does not exist. -/
def fsDangling : FS :=
  { cwd := "/w".data,
    ents := [("/w".data, .dir 0o755), ("/w/l".data, .link "/nowhere/x".data),
             ("/w/a.txt".data, .file [9] 0o644)] }

/-- Working directory `/w` holding `x`, a symbolic link to `/a/bc`, and a file `f`. -/
def fsStale : FS :=
  { cwd := "/w".data,
    ents := [("/w".data, .dir 0o755), ("/w/x".data, .link "/a/bc".data),
             ("/w/f".data, .file [] 0o644)] }


/-- Working directory `/w` with the tree `root/keep/drop/match.txt`. -/
def fsKeep : FS :=
  { cwd := "/w".data,
    ents := [("/w".data, .dir 0o755), ("/w/root".data, .dir 0o755),
             ("/w/root/keep".data, .dir 0o755), ("/w/root/keep/drop".data, .dir 0o755),
             ("/w/root/keep/drop/match.txt".data, .file [1] 0o644)] }

/-- The content of `root` in `fsKeep`, as `readdir` delivers it. -/
def keepTree : Listing :=
  .file ".".data (.file "..".data
    (.dir "keep".data
      (.file ".".data (.file "..".data
        (.dir "drop".data
          (.file ".".data (.file "..".data (.file "match.txt".data .nil)))
          .nil)))
      .nil))

/-- Working directory `/w` with `root/.hid/x.txt` and `root/a.txt`. -/
def fsHidden : FS :=
  { cwd := "/w".data,
    ents := [("/w".data, .dir 0o755), ("/w/root".data, .dir 0o755),
             ("/w/root/.hid".data, .dir 0o755), ("/w/root/.hid/x.txt".data, .file [1] 0o644),
             ("/w/root/a.txt".data, .file [2] 0o644)] }

/-- The content of `root` in `fsHidden`, as `readdir` delivers it. -/
def hiddenTree : Listing :=
  .file ".".data (.file "..".data
    (.dir ".hid".data
      (.file ".".data (.file "..".data (.file "x.txt".data .nil)))
      (.file "a.txt".data .nil)))

/-- Working directory `/w` holding `a.txt` (content `9`) and the directory `s` with
its own `a.txt` (content `7`, mode `0600`). -/
def fsCopy : FS :=
  { cwd := "/w".data,
    ents := [("/w".data, .dir 0o755), ("/w/a.txt".data, .file [9] 0o644),
             ("/w/s".data, .dir 0o755), ("/w/s/a.txt".data, .file [7] 0o600)] }

/-- Working directory `/w` holding the regular file `f` (content `5`) and nothing
else. -/
def fsFile : FS :=
  { cwd := "/w".data,
    ents := [("/w".data, .dir 0o755), ("/w/f".data, .file [5] 0o644)] }

/-! ## Theorems -/

/-- C1 (code defect). In `fsFile` the working directory holds the regular file `f` and
no `b`. The first `ut_mkdir("b/../f")` finds the path absent (`b` is missing), creates
`b` through its self-call on the prefix `b/..`, and accepts `EEXIST` from the final
`mkdir`: it returns `0` while `b/../f` is still the regular file, not a directory.
The second call, issued on the state the first one left, finds the file, removes it
and creates a directory in its place: it returns `0` too, but the file system is not
as the first call left it: what is stored under `/w/f` is the file after the first
call and a directory after the second. -/
theorem ut_mkdir_second_call_replaces_file :
    ut_mkdir walk 3 ⟨fsFile, []⟩ "b/../f".data
        = .ret 0 ⟨{ cwd := "/w".data,
                    ents := [("/w".data, .dir 0o755), ("/w/f".data, .file [5] 0o644),
                      ("/w/b".data, .dir 0o755)] },
            [.fileTest "b/../f".data false, .mkdir "b/../f".data (some .ENOENT),
             .fileTest "b/..".data false, .mkdir "b/..".data (some .ENOENT),
             .fileTest "b".data false, .mkdir "b".data none,
             .mkdir "b/..".data (some .EEXIST), .mkdir "b/../f".data (some .EEXIST)]⟩
      ∧ (ut_isdir walk
            ⟨{ cwd := "/w".data,
               ents := [("/w".data, .dir 0o755), ("/w/f".data, .file [5] 0o644),
                 ("/w/b".data, .dir 0o755)] }, []⟩ "b/../f".data).1 = false
      ∧ ut_mkdir walk 3
            ⟨{ cwd := "/w".data,
               ents := [("/w".data, .dir 0o755), ("/w/f".data, .file [5] 0o644),
                 ("/w/b".data, .dir 0o755)] }, []⟩ "b/../f".data
          = .ret 0 ⟨{ cwd := "/w".data,
                      ents := [("/w".data, .dir 0o755), ("/w/b".data, .dir 0o755),
                        ("/w/f".data, .dir 0o755)] },
              [.fileTest "b/../f".data true, .stat "b/../f".data (some 0o100644),
               .remove "b/../f".data none, .mkdir "b/../f".data none]⟩
      ∧ (ut_mkdir walk 3 ⟨fsFile, []⟩ "b/../f".data).world.map (fun w => w.fs.get "/w/f".data)
          = some (some (.file [5] 0o644))
      ∧ ((ut_mkdir walk 3 ⟨fsFile, []⟩ "b/../f".data).world.bind
            (fun w => (ut_mkdir walk 3 w "b/../f".data).world)).map
              (fun w => w.fs.get "/w/f".data)
          = some (some (.dir 0o755)) := by
  refine ⟨?_, ?_, ?_, ?_, ?_⟩
  · decide
  · decide
  · decide
  · decide
  · decide

/-- When the path exists and is a directory, `ut_mkdir` returns `0` before removing or
creating anything: the file system is left as it is. -/
theorem ut_mkdir_on_directory {σ : Type} (K : Sys σ) (fuel : Nat) (w : World σ)
    (fmt name : Str) (m : Nat) (hv : K.ut_venvparse fmt = some name)
    (ht : K.ut_file_test w.fs name = true) (hs : K.stat w.fs name = .ok m)
    (hd : S_ISDIR m = true) :
    ut_mkdir K (fuel + 1) w fmt
      = .ret 0 ⟨w.fs, w.log ++ [.fileTest name true, .stat name (some m)]⟩ := by
  simp [ut_mkdir, hv, file_test, ht, ut_isdir, hs, hd, World.note]

/-- A dangling symbolic link `l`: `ut_file_test` reports it absent, `mkdir` fails
with `EEXIST`, which `ut_mkdir` tolerates. The call returns `0` although `l` is not a
directory afterwards, and a second call does the same again. -/
theorem ut_mkdir_dangling_link :
    ut_mkdir posix 1 ⟨fsDangling, []⟩ "l".data
        = .ret 0 ⟨fsDangling, [.fileTest "l".data false, .mkdir "l".data (some .EEXIST)]⟩
      ∧ (ut_isdir posix ⟨fsDangling, []⟩ "l".data).1 = false
      ∧ fsDangling.get "/w/l".data = some (.link "/nowhere/x".data)
      ∧ ut_mkdir posix 1
            ⟨fsDangling, [.fileTest "l".data false, .mkdir "l".data (some .EEXIST)]⟩ "l".data
          = .ret 0 ⟨fsDangling, [.fileTest "l".data false, .mkdir "l".data (some .EEXIST),
              .fileTest "l".data false, .mkdir "l".data (some .EEXIST)]⟩ := by
  decide

/-- C2. When the direct `remove(name)` fails with `ENOENT`, `ut_rm` returns `0`, the
file system is unchanged and the only call made is that `remove`: `ut_rmtree`
(whose `nftw` would be logged) is not invoked. -/
theorem ut_rm_absent {σ : Type} (K : Sys σ) (w : World σ) (name : Str)
    (h : K.remove w.fs name = .err .ENOENT) :
    (ut_rm K w name).1 = 0
      ∧ (ut_rm K w name).2.fs = w.fs
      ∧ (ut_rm K w name).2.log = w.log ++ [.remove name (some .ENOENT)] := by
  simp [ut_rm, c_remove, h, World.note]

/-- Witness of `ut_rm_absent`: `zz` does not exist in `fsDangling`. -/
theorem ut_rm_absent_witness :
    posix.remove fsDangling "zz".data = .err .ENOENT
      ∧ (ut_rm posix ⟨fsDangling, []⟩ "zz".data).1 = 0
      ∧ (ut_rm posix ⟨fsDangling, []⟩ "zz".data).2.fs = fsDangling
      ∧ (ut_rm posix ⟨fsDangling, []⟩ "zz".data).2.log = [.remove "zz".data (some .ENOENT)] :=
  ⟨by decide, ut_rm_absent posix ⟨fsDangling, []⟩ "zz".data (by decide)⟩

/-- C3 (code defect). `x` is a symbolic link to `/a/bc`. `ut_symlink("/a/b", "x")`
finds `x` existing; `ut_checklink` reads only `strlen("/a/b") = 4` bytes of the stored
target, gets `/a/b`, and reports a match: the link is kept, still pointing at
`/a/bc`, and `0` is returned without `ut_rm` or a second `symlink`. -/
theorem ut_symlink_keeps_longer_target :
    ut_symlink posix 2 ⟨fsStale, []⟩ "/a/b".data "x".data
        = .ret 0 ⟨fsStale, [.symlink "/a/b".data "x".data (some .EEXIST),
            .readlink "x".data 4 (some "/a/b".data)]⟩
      ∧ posix.readlink fsStale "x".data = .ok "/a/bc".data
      ∧ (ut_checklink posix ⟨fsStale, []⟩ "x".data "/a/b".data).1 = true := by
  decide

/-- C4 (code defect). `f` is a regular file, so `symlink("/a/b", "f/x")` fails with
`ENOTDIR`: `ut_symlink` returns `0` and no link exists. `l` is a dangling link, so
`symlink("/a/b", "l/b/y")` fails with `ENOENT` and `ut_mkdir("l/b")` fails:
`ut_symlink` raises the error with `ut_throw` and returns `0` all the same. -/
theorem ut_symlink_failure_returns_zero :
    ut_symlink posix 2 ⟨fsStale, []⟩ "/a/b".data "f/x".data
        = .ret 0 ⟨fsStale, [.symlink "/a/b".data "f/x".data (some .ENOTDIR)]⟩
      ∧ posix.readlink fsStale "f/x".data = .err .ENOENT
      ∧ ut_symlink posix 3 ⟨fsDangling, []⟩ "/a/b".data "l/b/y".data
        = .ret 0 ⟨fsDangling, [.symlink "/a/b".data "l/b/y".data (some .ENOENT),
            .fileTest "l/b".data false, .mkdir "l/b".data (some .ENOENT),
            .fileTest "l".data false, .mkdir "l".data (some .EEXIST),
            .mkdir "l/b".data (some .ENOENT), .throw, .throw]⟩
      ∧ posix.readlink fsDangling "l/b/y".data = .err .ENOENT := by
  decide

section Listing

variable {σ : Type} (K : Sys σ)

theorem ut_isdir_fst (w : World σ) (path : Str) :
    (ut_isdir K w path).1 = isDirAt K w.fs path := by
  unfold ut_isdir isDirAt
  cases K.stat w.fs path <;> rfl

theorem ut_isdir_fs (w : World σ) (path : Str) :
    (ut_isdir K w path).2.fs = w.fs := by
  unfold ut_isdir
  cases K.stat w.fs path <;> rfl

theorem ut_dir_hasNext_dotted (n : Str) (rest : List Str) (h : dotted n = true) :
    ut_dir_hasNext (n :: rest) = ut_dir_hasNext rest := by
  simp only [dotted, decide_eq_true_eq] at h
  simp [ut_dir_hasNext, h]

theorem ut_dir_hasNext_plain (n : Str) (rest : List Str) (h : dotted n = false) :
    ut_dir_hasNext (n :: rest) = some (n, rest) := by
  simp only [dotted, decide_eq_false_iff_not] at h
  simp [ut_dir_hasNext, h]

theorem collect_loop_dotted
    (self : World σ → Str → List Str → List Str → Res σ (Int × Option (List Str) × List Str))
    (filter : Option Prog) (k : Nat) (n : Str) (rest : List Str) (w : World σ)
    (st files : List Str) (h : dotted n = true) :
    collect_loop K self filter (k + 1) (n :: rest) w st files
      = collect_loop K self filter (k + 1) rest w st files := by
  rw [collect_loop, collect_loop, ut_dir_hasNext_dotted n rest h]

theorem collect_loop_spec (filter : Option Prog) (L : Listing) :
    ∀ (fuel k : Nat) (w : World σ) (st : List Str) (wd : Str) (files : List Str),
      ut_dirstack_wd st = some wd → Shows K w.fs wd L → L.depth ≤ fuel →
      L.names.length < k →
      ∃ w', collect_loop K
          (fun w2 file st2 fs2 =>
            ut_dir_collectRecursive K fuel w2 (some file) (some st2) filter fs2)
          filter k L.names w st files
          = .ret (0, st, files ++ L.preorder K.ut_path_clean (K.ut_expr_run filter) wd) w'
        ∧ w'.fs = w.fs := by
  induction L with
  | nil =>
    intro fuel k w st wd files _ _ _ hk
    obtain ⟨k, rfl⟩ : ∃ k', k = k' + 1 := ⟨k - 1, by simp [Listing.names] at hk; omega⟩
    exact ⟨w, by simp [collect_loop, Listing.names, ut_dir_hasNext, Listing.preorder], rfl⟩
  | file n rest ih =>
    intro fuel k w st wd files hwd hs hd hk
    obtain ⟨k, rfl⟩ : ∃ k', k = k' + 1 := ⟨k - 1, by simp [Listing.names] at hk; omega⟩
    simp only [Listing.names, List.length_cons] at hk
    obtain ⟨hn, hrest⟩ := hs
    cases hdot : dotted n with
    | true =>
      simp only [Listing.names]
      rw [collect_loop_dotted K _ filter k n _ w st files hdot]
      obtain ⟨w', h1, h2⟩ := ih fuel (k + 1) w st wd files hwd hrest hd (by omega)
      exact ⟨w', by simp [h1, Listing.preorder, hdot], h2⟩
    | false =>
      have hnd : isDirAt K w.fs (K.ut_path_clean (wd ++ '/' :: n)) = false := by
        rcases hn with h | h
        · simp [hdot] at h
        · exact h
      simp only [Listing.names]
      rw [collect_loop, ut_dir_hasNext_plain n _ hdot]
      simp only [hwd, Option.getD_some]
      rcases hi : ut_isdir K (w.note (.exprRun filter (K.ut_path_clean (wd ++ '/' :: n))))
        (K.ut_path_clean (wd ++ '/' :: n)) with ⟨b, w2⟩
      have hb := ut_isdir_fst K (w.note (.exprRun filter (K.ut_path_clean (wd ++ '/' :: n))))
        (K.ut_path_clean (wd ++ '/' :: n))
      have hf := ut_isdir_fs K (w.note (.exprRun filter (K.ut_path_clean (wd ++ '/' :: n))))
        (K.ut_path_clean (wd ++ '/' :: n))
      rw [hi] at hb hf
      simp only [World.note] at hb hf
      rw [hnd] at hb
      subst hb
      simp only
      have hs2 : Shows K w2.fs wd rest := by rw [hf]; exact hrest
      obtain ⟨w', h1, h2⟩ := ih fuel k w2 st wd _ hwd hs2 hd (by omega)
      refine ⟨w', ?_, by rw [h2, hf]⟩
      rw [h1]
      simp only [Listing.preorder, hdot]
      by_cases hk : K.ut_expr_run filter (K.ut_path_clean (wd ++ '/' :: n)) = true <;> simp [hk]
  | dir n kids rest ihk ihr =>
    intro fuel k w st wd files hwd hs hd hk
    obtain ⟨k, rfl⟩ : ∃ k', k = k' + 1 := ⟨k - 1, by simp [Listing.names] at hk; omega⟩
    simp only [Listing.names, List.length_cons] at hk
    obtain ⟨hn, hrest⟩ := hs
    simp only [Listing.depth] at hd
    cases hdot : dotted n with
    | true =>
      simp only [Listing.names]
      rw [collect_loop_dotted K _ filter k n _ w st files hdot]
      obtain ⟨w', h1, h2⟩ := ihr fuel (k + 1) w st wd files hwd hrest (by omega) (by omega)
      exact ⟨w', by simp [h1, Listing.preorder, hdot], h2⟩
    | false =>
      obtain ⟨hne, hnd, hopen, hkids⟩ :
          n ≠ [] ∧ isDirAt K w.fs (K.ut_path_clean (wd ++ '/' :: n)) = true
            ∧ K.opendir w.fs (wd ++ '/' :: n) = .ok kids.names
            ∧ Shows K w.fs (wd ++ '/' :: n) kids := by
        rcases hn with h | h
        · simp [hdot] at h
        · exact h
      obtain ⟨f, rfl⟩ : ∃ f, fuel = f + 1 := ⟨fuel - 1, by omega⟩
      simp only [Listing.names]
      rw [collect_loop, ut_dir_hasNext_plain n _ hdot]
      simp only [hwd, Option.getD_some]
      rcases hi : ut_isdir K (w.note (.exprRun filter (K.ut_path_clean (wd ++ '/' :: n))))
        (K.ut_path_clean (wd ++ '/' :: n)) with ⟨b, w2⟩
      have hb := ut_isdir_fst K (w.note (.exprRun filter (K.ut_path_clean (wd ++ '/' :: n))))
        (K.ut_path_clean (wd ++ '/' :: n))
      have hf := ut_isdir_fs K (w.note (.exprRun filter (K.ut_path_clean (wd ++ '/' :: n))))
        (K.ut_path_clean (wd ++ '/' :: n))
      rw [hi] at hb hf
      simp only [World.note] at hb hf
      rw [hnd] at hb
      subst hb
      simp only
      -- the recursive call
      obtain ⟨c, cs, rfl⟩ : ∃ c cs, n = c :: cs := by
        cases n with
        | nil => exact absurd rfl hne
        | cons c cs => exact ⟨c, cs, rfl⟩
      have hwd2 : ut_dirstack_wd (ut_dirstack_push (some st) (c :: cs))
          = some (wd ++ '/' :: c :: cs) := by
        simp only [ut_dirstack_wd] at hwd
        simp [ut_dirstack_wd, ut_dirstack_push, hwd]
      have hopen2 : K.opendir w2.fs (wd ++ '/' :: c :: cs) = .ok kids.names := by
        rw [hf]; exact hopen
      obtain ⟨w3, h3, h3f⟩ := ihk f (kids.names.length + 1)
        (w2.note (.opendir (wd ++ '/' :: c :: cs) true))
        (ut_dirstack_push (some st) (c :: cs)) (wd ++ '/' :: c :: cs)
        (if K.ut_expr_run filter (K.ut_path_clean (wd ++ '/' :: c :: cs)) = true
          then files ++ [K.ut_path_clean (wd ++ '/' :: c :: cs)] else files)
        hwd2 (by simp only [World.note]; rw [hf]; exact hkids) (by omega) (by omega)
      have hpop : ut_dirstack_pop (ut_dirstack_push (some st) (c :: cs)) = st := by
        simp [ut_dirstack_pop, ut_dirstack_push]
      have hself : ut_dir_collectRecursive K (f + 1) w2 (some (c :: cs)) (some st) filter
          (if K.ut_expr_run filter (K.ut_path_clean (wd ++ '/' :: c :: cs)) = true
            then files ++ [K.ut_path_clean (wd ++ '/' :: c :: cs)] else files)
          = .ret (0, some st,
              (if K.ut_expr_run filter (K.ut_path_clean (wd ++ '/' :: c :: cs)) = true
                then files ++ [K.ut_path_clean (wd ++ '/' :: c :: cs)] else files)
              ++ kids.preorder K.ut_path_clean (K.ut_expr_run filter) (wd ++ '/' :: c :: cs))
              w3 := by
        rw [ut_dir_collectRecursive]
        simp only [Option.getD_some, if_true, hwd2, dir_open, hopen2, h3, hpop]
        simp
      rw [hself]
      simp only
      have hs3 : Shows K w3.fs wd rest := by
        rw [h3f]; simp only [World.note]; rw [hf]; exact hrest
      obtain ⟨w', h1, h2⟩ := ihr (f + 1) k w3 st wd _ hwd hs3 (by omega) (by omega)
      refine ⟨w', ?_, by rw [h2, h3f]; simp only [World.note]; rw [hf]⟩
      simp only [ne_eq, not_true_eq_false, if_false]
      rw [h1]
      simp only [Listing.preorder, hdot]
      by_cases hk : K.ut_expr_run filter (K.ut_path_clean (wd ++ '/' :: c :: cs)) = true <;>
        simp [hk]

/-- C5 (as amended). When the tree with content `L` is found at the non-empty
directory path `name`, `ut_dir_collectRecursive(name, NULL, filter, files)` returns `0`
for every fuel above the depth of the tree, leaves the file system alone, and appends
to `files` exactly the depth-first pre-order reference `Listing.preorder`: the cleaned
paths `workingPath/entry` that pass the filter, in listing order, a directory before
its descendants, every non-dotted directory descended into whether or not its own
path passed, and every dotted entry left out together with what lies below it. -/
theorem ut_dir_collectRecursive_preorder (filter : Option Prog) (L : Listing) (fuel : Nat)
    (w : World σ) (name : Str) (files : List Str)
    (hname : name ≠ []) (hroot : Rooted K w.fs name L) (hfuel : L.depth < fuel) :
    ∃ w', ut_dir_collectRecursive K fuel w (some name) none filter files
        = .ret (0, some [],
            files ++ L.preorder K.ut_path_clean (K.ut_expr_run filter) name) w'
      ∧ w'.fs = w.fs := by
  obtain ⟨f, rfl⟩ : ∃ f, fuel = f + 1 := ⟨fuel - 1, by omega⟩
  obtain ⟨c, cs, rfl⟩ : ∃ c cs, name = c :: cs := by
    cases name with
    | nil => exact absurd rfl hname
    | cons c cs => exact ⟨c, cs, rfl⟩
  obtain ⟨hopen, hshows⟩ := hroot
  obtain ⟨w3, h3, h3f⟩ := collect_loop_spec K filter L f (L.names.length + 1)
    (w.note (.opendir (c :: cs) true)) [c :: cs] (c :: cs) files
    (by simp [ut_dirstack_wd]) (by simpa [World.note] using hshows) (by omega) (by omega)
  refine ⟨w3, ?_, by rw [h3f]; rfl⟩
  rw [ut_dir_collectRecursive]
  simp only [Option.getD_some, if_true, ut_dirstack_push, ut_dirstack_wd, List.getLast?_singleton,
    dir_open, hopen, h3]
  simp [ut_dirstack_pop]

end Listing

/-- Witness of `ut_dir_collectRecursive_preorder`, the example of the claim: in the
tree `root/keep/drop/match.txt`, with the filter that matches only `*.txt`, the
listing is `[root/keep/drop/match.txt]` although `keep` and `drop` do not match. -/
theorem ut_dir_collectRecursive_preorder_witness :
    "root".data ≠ [] ∧ Rooted posix fsKeep "root".data keepTree ∧ keepTree.depth < 3
      ∧ ∃ w', ut_dir_collectRecursive posix 3 ⟨fsKeep, []⟩ (some "root".data) none (some 3) []
          = .ret (0, some [], ["root/keep/drop/match.txt".data]) w' ∧ w'.fs = fsKeep :=
  ⟨by decide, ⟨by decide, by simp only [keepTree, Shows]; decide⟩, by decide,
    ut_dir_collectRecursive_preorder posix (some 3) keepTree 3 ⟨fsKeep, []⟩ "root".data []
      (by decide) ⟨by decide, by simp only [keepTree, Shows]; decide⟩ (by decide)⟩

/-- C5 (counterexample to the claim as worded). In `fsHidden` the entry
`root/.hid/x.txt` lies in the subtree of `root`, its name `x.txt` does not start with
`'.'` and the filter `//*` accepts every path, yet the recursive listing does not
contain it: the dotted directory `.hid` is skipped, and never descended into. -/
theorem ut_dir_collectRecursive_skips_below_dotted :
    Rooted posix fsHidden "root".data hiddenTree
      ∧ (ut_dir_collectRecursive posix 3 ⟨fsHidden, []⟩ (some "root".data) none (some 2) []).val
          = some (0, some [], ["root/a.txt".data])
      ∧ hiddenTree.wholeSubtree path_clean (expr_run (some 2)) "root".data
          = ["root/.hid/x.txt".data, "root/a.txt".data]
      ∧ (ut_dir_collectRecursive posix 3 ⟨fsHidden, []⟩ (some "root".data) none (some 2) []).val
          ≠ some (0, some [],
              hiddenTree.wholeSubtree path_clean (expr_run (some 2)) "root".data) := by
  refine ⟨⟨by decide, by simp only [hiddenTree, Shows]; decide⟩, by decide, by decide,
    by decide⟩

/-- C6 (code defect). `ut_cp_dir("s", "d")` in `fsCopy`: the loop hands the bare
entry name `a.txt` to `ut_isdir` and to `ut_cp_file`, so the file that is classified
and read is `a.txt` of the working directory, not `s/a.txt`. The call returns `0` and
`d/a.txt` holds the content `9` of `./a.txt` instead of the content `7` of `s/a.txt`.
In `fsKeep`, where the working directory has no entry `keep`, copying `root` fails. -/
theorem ut_cp_dir_reads_bare_entry_name :
    ut_cp_dir posix 1 ⟨fsCopy, []⟩ "s".data "d".data
        = .ret 0
            ⟨{ cwd := "/w".data,
               ents := [("/w".data, .dir 0o755), ("/w/a.txt".data, .file [9] 0o644),
                 ("/w/s".data, .dir 0o755), ("/w/s/a.txt".data, .file [7] 0o600),
                 ("/w/d".data, .dir 0o755), ("/w/d/a.txt".data, .file [9] 0o644)] },
             [.fileTest "d".data false, .mkdir "d".data none, .opendir "s".data true,
              .stat "a.txt".data (some 0o100644), .fileTest "d".data true,
              .stat "d".data (some 0o040755), .stat "a.txt".data (some 0o100644),
              .fileTest "d/a.txt".data false, .fopenR "a.txt".data none,
              .fopenW "d/a.txt".data none, .stat "a.txt".data (some 0o100644), .fread 1,
              .fwrite (some "/w/d/a.txt".data) [9], .chmod "d/a.txt".data 0o100644 none]⟩
      ∧ fsCopy.get "/w/s/a.txt".data = some (.file [7] 0o600)
      ∧ (ut_cp_dir posix 2 ⟨fsKeep, []⟩ "root".data "d".data).val = some (-1) := by
  decide

/-- C8 (code defect). `l` is a dangling link, so opening `l/b/x` for writing fails
with `ENOENT` and `ut_mkdir("l/b")` fails; opening `l` itself fails with `ENOENT` and
its directory part is empty. In both cases `ut_cp_file` does not return `-1` there: it
raises the error and goes on with `destinationFile == NULL`, reads the permissions of
the source (`stat`), reads its bytes and calls `fwrite` on the `NULL` stream. -/
theorem ut_cp_file_goes_on_without_destination :
    ut_cp_file posix 2 ⟨fsDangling, []⟩ "a.txt".data "l/b/x".data
        = .fault ⟨fsDangling,
            [.fileTest "l/b/x".data false, .fopenR "a.txt".data none,
             .fopenW "l/b/x".data (some .ENOENT), .fileTest "l/b".data false,
             .mkdir "l/b".data (some .ENOENT), .fileTest "l".data false,
             .mkdir "l".data (some .EEXIST), .mkdir "l/b".data (some .ENOENT), .throw, .throw,
             .stat "a.txt".data (some 0o100644), .fread 1, .fwrite none [9]]⟩
      ∧ ut_cp_file posix 2 ⟨fsDangling, []⟩ "a.txt".data "l".data
        = .fault ⟨fsDangling,
            [.fileTest "l".data false, .fopenR "a.txt".data none,
             .fopenW "l".data (some .ENOENT), .throw,
             .stat "a.txt".data (some 0o100644), .fread 1, .fwrite none [9]]⟩ := by
  decide

/-- C9 (code defect). The filter `[` does not compile (`ut_expr_compile` yields no
program). `ut_dir_iter` does not test the result: it queries the scope of the missing
program, opens the directory, stores a filtered iterator around the missing program
in `*it_out` and returns `0`. -/
theorem ut_dir_iter_ignores_compile_failure :
    posix.ut_expr_compile "[".data = none
      ∧ ut_dir_iter posix 1 ⟨fsKeep, []⟩ (some "root".data) (some "[".data)
        = .ret (0, some (.filtered none [".".data, "..".data, "keep".data]))
            ⟨fsKeep, [.exprCompile "[".data none, .exprScope none,
              .opendir "root".data true]⟩ := by
  decide

section Copy

variable {σ : Type} (K : Sys σ)

theorem Grows.refl (q : Str) (w : World σ) : Grows q w w :=
  ⟨[], by simp [Extends], by simp⟩

theorem Grows.trans {q : Str} {w1 w2 w3 : World σ} (h1 : Grows q w1 w2) (h2 : Grows q w2 w3) :
    Grows q w1 w3 := by
  obtain ⟨e1, h1, p1⟩ := h1
  obtain ⟨e2, h2, p2⟩ := h2
  refine ⟨e1 ++ e2, ?_, ?_⟩
  · simp only [Extends] at *
    rw [h2, h1, List.append_assoc]
  · intro c hc
    rcases List.mem_append.mp hc with h | h
    · exact p1 c h
    · exact p2 c h

theorem Grows.step {q : Str} {w wf : World σ} {c : Call} (h : wf.log = w.log ++ [c])
    (hc : OnlyOpens q c) : Grows q w wf :=
  ⟨[c], h, by simpa using hc⟩

theorem Grows.note {q : Str} (w : World σ) {c : Call} (hc : OnlyOpens q c) :
    Grows q w (w.note c) :=
  Grows.step rfl hc

theorem grows_ut_isdir (q : Str) (w : World σ) (path : Str) :
    Grows q w (ut_isdir K w path).2 := by
  unfold ut_isdir
  split <;> exact Grows.note _ (by intro p r h; cases h)

theorem grows_file_test (q : Str) (w : World σ) (path : Str) :
    Grows q w (file_test K w path).2 :=
  Grows.note _ (by intro p r h; cases h)

theorem grows_c_remove (q : Str) (w : World σ) (path : Str) :
    Grows q w (c_remove K w path).2 := by
  unfold c_remove
  split
  · exact Grows.step rfl (by intro p r h; cases h)
  · exact Grows.note _ (by intro p r h; cases h)

theorem grows_c_mkdir (q : Str) (w : World σ) (path : Str) :
    Grows q w (c_mkdir K w path).2 := by
  unfold c_mkdir
  split
  · exact Grows.step rfl (by intro p r h; cases h)
  · exact Grows.note _ (by intro p r h; cases h)

theorem grows_ut_rmtreeCallback (q : Str) (w : World σ) (path : Str) :
    Grows q w (ut_rmtreeCallback K w path).2 := by
  unfold ut_rmtreeCallback
  have h := grows_c_remove K q w path
  split
  · rename_i h1; rw [h1] at h; exact h
  · rename_i h1; rw [h1] at h; exact h.trans (Grows.note _ (by intro p r h; cases h))

theorem grows_nftw_walk (q : Str) (ps : List Str) :
    ∀ w : World σ, Grows q w (nftw_walk K ps w).2 := by
  induction ps with
  | nil => intro w; exact Grows.refl q w
  | cons p ps ih =>
    intro w
    unfold nftw_walk
    have h := grows_ut_rmtreeCallback K q w p
    split
    rename_i r w1 h1
    rw [h1] at h
    split
    · exact h
    · exact h.trans (ih w1)

theorem grows_ut_rmtree (q : Str) (w : World σ) (name : Str) :
    Grows q w (ut_rmtree K w name).2 := by
  unfold ut_rmtree
  split
  · exact Grows.note _ (by intro p r h; cases h)
  · exact (Grows.note w (by intro p r h; cases h)).trans (grows_nftw_walk K q _ _)

theorem grows_ut_rm (q : Str) (w : World σ) (name : Str) :
    Grows q w (ut_rm K w name).2 := by
  unfold ut_rm
  have h := grows_c_remove K q w name
  split
  · rename_i h1; rw [h1] at h; exact h
  · rename_i e w1 h1
    rw [h1] at h
    split
    · have h2 := grows_ut_isdir K q w1 name
      split
      · rename_i w2 h3; rw [h3] at h2; exact (h.trans h2).trans (grows_ut_rmtree K q w2 name)
      · rename_i w2 h3; rw [h3] at h2
        exact (h.trans h2).trans (Grows.note _ (by intro p r h; cases h))
    · exact h

theorem grows_mkdir_create (q : Str) (self : World σ → Str → Res σ Int)
    (hself : ∀ w p wf, (self w p).world = some wf → Grows q w wf) :
    ∀ w name wf, (mkdir_create K self w name).world = some wf → Grows q w wf := by
  intro w name wf hwf
  unfold mkdir_create at hwf
  have h := grows_c_mkdir K q w name
  split at hwf
  · rename_i w3 h1
    rw [h1] at h
    simp only [Res.world, Option.some.injEq] at hwf
    subst hwf; exact h
  · rename_i e w3 h1
    rw [h1] at h
    split at hwf
    · split at hwf
      · rename_i pre _
        have hs := hself w3 pre
        split at hwf
        · rename_i r w4 h4
          rw [h4] at hs
          have hs := hs w4 rfl
          split at hwf
          · have h5 := grows_c_mkdir K q w4 name
            split at hwf
            · rename_i w5 h6
              rw [h6] at h5
              simp only [Res.world, Option.some.injEq] at hwf
              subst hwf; exact (h.trans hs).trans h5
            · rename_i e2 w5 h6
              rw [h6] at h5
              split at hwf
              · simp only [Res.world, Option.some.injEq] at hwf
                subst hwf
                exact ((h.trans hs).trans h5).trans (Grows.note _ (by intro p r h; cases h))
              · simp only [Res.world, Option.some.injEq] at hwf
                subst hwf; exact (h.trans hs).trans h5
          · simp only [Res.world, Option.some.injEq] at hwf
            subst hwf
            exact (h.trans hs).trans (Grows.note _ (by intro p r h; cases h))
        · rename_i w4 h4
          rw [h4] at hs
          simp only [Res.world, Option.some.injEq] at hwf
          subst hwf; exact h.trans (hs _ rfl)
        · simp [Res.world] at hwf
      · simp only [Res.world, Option.some.injEq] at hwf
        subst hwf; exact h.trans (Grows.note _ (by intro p r h; cases h))
    · split at hwf
      · simp only [Res.world, Option.some.injEq] at hwf
        subst hwf; exact h.trans (Grows.note _ (by intro p r h; cases h))
      · simp only [Res.world, Option.some.injEq] at hwf
        subst hwf; exact h

theorem grows_ut_mkdir (q : Str) :
    ∀ fuel (w : World σ) fmt wf, (ut_mkdir K fuel w fmt).world = some wf → Grows q w wf := by
  intro fuel
  induction fuel with
  | zero => intro w fmt wf h; simp [ut_mkdir, Res.world] at h
  | succ fuel ih =>
    intro w fmt wf hwf
    unfold ut_mkdir at hwf
    split at hwf
    · simp only [Res.world, Option.some.injEq] at hwf
      subst hwf; exact Grows.refl q w
    · rename_i name _
      have h1 := grows_file_test K q w name
      split at hwf
      · rename_i w1 h2
        rw [h2] at h1
        have h3 := grows_ut_isdir K q w1 name
        split at hwf
        · rename_i w2 h4
          rw [h4] at h3
          have h5 := grows_ut_rm K q w2 name
          split at hwf
          rename_i r w3 h6
          rw [h6] at h5
          split at hwf
          · simp only [Res.world, Option.some.injEq] at hwf
            subst hwf
            exact ((h1.trans h3).trans h5).trans (Grows.note _ (by intro p r h; cases h))
          · exact ((h1.trans h3).trans h5).trans
              (grows_mkdir_create K q _ (fun w p wf h => ih w p wf h) w3 name wf hwf)
        · rename_i w2 h4
          rw [h4] at h3
          simp only [Res.world, Option.some.injEq] at hwf
          subst hwf; exact h1.trans h3
      · rename_i w1 h2
        rw [h2] at h1
        exact h1.trans (grows_mkdir_create K q _ (fun w p wf h => ih w p wf h) w1 name wf hwf)

theorem grows_ut_getperm (q : Str) (w : World σ) (name : Str) :
    Grows q w (ut_getperm K w name).2.2 := by
  unfold ut_getperm
  split
  · exact (Grows.note w (by intro p r h; cases h)).trans
      (Grows.note _ (by intro p r h; cases h))
  · exact Grows.note _ (by intro p r h; cases h)

theorem grows_ut_setperm (q : Str) (w : World σ) (name : Str) (perm : Nat) :
    Grows q w (ut_setperm K w name perm).2 := by
  unfold ut_setperm
  split
  · exact (Grows.note w (by intro p r h; cases h)).trans
      (Grows.note _ (by intro p r h; cases h))
  · exact Grows.step rfl (by intro p r h; cases h)

theorem grows_c_fopenR (q : Str) (w : World σ) (path : Str) :
    Grows q w (c_fopenR K w path).2 := by
  unfold c_fopenR
  split <;> exact Grows.note _ (by intro p r h; cases h)

theorem grows_c_fopenW (w : World σ) (path : Str) :
    Grows path w (c_fopenW K w path).2 := by
  unfold c_fopenW
  split
  · exact Grows.step rfl (by intro p r h; cases h; rfl)
  · exact Grows.note _ (by intro p r h; cases h; rfl)

theorem grows_cp_file_body (q : Str) (w : World σ) (src fullDst : Str) (rf : RFile)
    (dest : Option Handle) (wf : World σ)
    (hwf : (cp_file_body K w src fullDst rf dest).world = some wf) : Grows q w wf := by
  unfold cp_file_body at hwf
  have h := grows_ut_getperm K q w src
  split at hwf
  · rename_i perm w1 h1
    rw [h1] at h
    simp only at h
    split at hwf
    · split at hwf
      · simp only [Res.world, Option.some.injEq] at hwf
        subst hwf; exact h.trans (Grows.note _ (by intro p r h; cases h))
      · rename_i fileSize _
        have hr : Grows q w1 (w1.note (.fread fileSize)) :=
          Grows.note _ (by intro p r h; cases h)
        simp only at hwf
        split at hwf
        · simp only [Res.world, Option.some.injEq] at hwf
          subst hwf; exact (h.trans hr).trans (Grows.note _ (by intro p r h; cases h))
        · split at hwf
          · simp only [Res.world, Option.some.injEq] at hwf
            subst hwf; exact (h.trans hr).trans (Grows.note _ (by intro p r h; cases h))
          · rename_i hd
            have hw : Grows q (w1.note (.fread fileSize))
                ({ fs := (K.fwrite (w1.note (.fread fileSize)).fs hd
                      (List.take fileSize rf.bytes)).2,
                   log := (w1.note (.fread fileSize)).log
                      ++ [.fwrite (some hd) (List.take fileSize rf.bytes)] } : World σ) :=
              Grows.step rfl (by intro p r h; cases h)
            split at hwf
            · simp only [Res.world, Option.some.injEq] at hwf
              subst hwf
              exact ((h.trans hr).trans hw).trans (Grows.note _ (by intro p r h; cases h))
            · have hp := grows_ut_setperm K q
                ({ fs := (K.fwrite (w1.note (.fread fileSize)).fs hd
                      (List.take fileSize rf.bytes)).2,
                   log := (w1.note (.fread fileSize)).log
                      ++ [.fwrite (some hd) (List.take fileSize rf.bytes)] } : World σ)
                fullDst perm
              split at hwf
              · rename_i w4 h4
                rw [h4] at hp
                simp only [Res.world, Option.some.injEq] at hwf
                subst hwf; exact ((h.trans hr).trans hw).trans hp
              · rename_i w4 _ h4
                rw [h4] at hp
                simp only [Res.world, Option.some.injEq] at hwf
                subst hwf
                exact (((h.trans hr).trans hw).trans hp).trans
                  (Grows.note _ (by intro p r h; cases h))
    · simp only [Res.world, Option.some.injEq] at hwf
      subst hwf; exact h.trans (Grows.note _ (by intro p r h; cases h))
  · rename_i w1 _ h1
    rw [h1] at h
    simp only [Res.world, Option.some.injEq] at hwf
    subst hwf; exact h.trans (Grows.note _ (by intro p r h; cases h))

theorem grows_cp_file_open (fuel : Nat) (w : World σ) (src fullDst : Str) (wf : World σ)
    (hwf : (cp_file_open K fuel w src fullDst).world = some wf) : Grows fullDst w wf := by
  unfold cp_file_open at hwf
  have h := grows_c_fopenR K fullDst w src
  split at hwf
  · rename_i w5 h5
    rw [h5] at h
    simp only [Res.world, Option.some.injEq] at hwf
    subst hwf; exact h.trans (Grows.note _ (by intro p r h; cases h))
  · rename_i rf w5 h5
    rw [h5] at h
    have ho := grows_c_fopenW K w5 fullDst
    split at hwf
    · rename_i hd w6 h6
      rw [h6] at ho
      exact (h.trans ho).trans (grows_cp_file_body K fullDst w6 src fullDst rf _ wf hwf)
    · rename_i e w6 h6
      rw [h6] at ho
      split at hwf
      · split at hwf
        · have hm := grows_ut_mkdir K fullDst fuel w6 (K.ut_path_dirname fullDst)
          split at hwf
          · rename_i r w7 h7
            rw [h7] at hm
            have hm := hm w7 rfl
            split at hwf
            · have ho2 := grows_c_fopenW K w7 fullDst
              split at hwf
              · rename_i hd w8 h8
                rw [h8] at ho2
                exact (((h.trans ho).trans hm).trans ho2).trans
                  (grows_cp_file_body K fullDst w8 src fullDst rf _ wf hwf)
              · rename_i e2 w8 h8
                rw [h8] at ho2
                simp only [Res.world, Option.some.injEq] at hwf
                subst hwf; exact ((h.trans ho).trans hm).trans ho2
            · exact (((h.trans ho).trans hm).trans
                (Grows.note _ (by intro p r h; cases h))).trans
                (grows_cp_file_body K fullDst _ src fullDst rf _ wf hwf)
          · rename_i w7 h7
            rw [h7] at hm
            simp only [Res.world, Option.some.injEq] at hwf
            subst hwf; exact (h.trans ho).trans (hm _ rfl)
          · simp [Res.world] at hwf
        · exact ((h.trans ho).trans (Grows.note _ (by intro p r h; cases h))).trans
            (grows_cp_file_body K fullDst _ src fullDst rf _ wf hwf)
      · simp only [Res.world, Option.some.injEq] at hwf
        subst hwf; exact (h.trans ho).trans (Grows.note _ (by intro p r h; cases h))

/-- The first call `ut_rm` makes is `remove(name)`. -/
theorem ut_rm_first_call (q : Str) (w : World σ) (name : Str) :
    ∃ r rest, Extends w (ut_rm K w name).2 (.remove name r :: rest)
      ∧ ∀ c ∈ rest, OnlyOpens q c := by
  unfold ut_rm
  cases hr : K.remove w.fs name with
  | ok s =>
    refine ⟨none, [], ?_, by simp⟩
    simp [c_remove, hr, Extends]
  | err e =>
    have hc : c_remove K w name = (some e, w.note (.remove name (some e))) := by
      simp [c_remove, hr]
    rw [hc]
    simp only
    split
    · have h2 := grows_ut_isdir K q (w.note (.remove name (some e))) name
      split
      · rename_i w2 h3
        rw [h3] at h2
        obtain ⟨ext, he, hp⟩ := h2.trans (grows_ut_rmtree K q w2 name)
        refine ⟨some e, ext, ?_, hp⟩
        simp only [Extends, World.note] at he ⊢
        rw [he]; simp
      · rename_i w2 h3
        rw [h3] at h2
        obtain ⟨ext, he, hp⟩ := h2.trans
          (Grows.note (q := q) w2 (c := .throw) (by intro p r h; cases h))
        refine ⟨some e, ext, ?_, hp⟩
        simp only [Extends, World.note] at he ⊢
        rw [he]; simp
    · exact ⟨some e, [], by simp [Extends, World.note], by simp⟩

theorem cp_file_to_log (fuel : Nat) (w : World σ) (src fullDst : Str) (present : Bool)
    (wf : World σ) (hwf : (cp_file_to K fuel w src fullDst present).world = some wf) :
    ∃ ext, Extends w wf ext ∧ (∀ c ∈ ext, OnlyOpens fullDst c)
      ∧ (present = true → ∃ r rest, ext = .remove fullDst r :: rest) := by
  unfold cp_file_to at hwf
  cases present with
  | false =>
    obtain ⟨ext, he, hp⟩ := grows_cp_file_open K fuel w src fullDst wf hwf
    exact ⟨ext, he, hp, by simp⟩
  | true =>
    simp only [if_true] at hwf
    obtain ⟨ext, he, hp⟩ := grows_cp_file_open K fuel _ src fullDst wf hwf
    obtain ⟨r, rest, hr, hq⟩ := ut_rm_first_call K fullDst w fullDst
    refine ⟨(.remove fullDst r :: rest) ++ ext, ?_, ?_, fun _ => ⟨r, rest ++ ext, by simp⟩⟩
    · simp only [Extends] at *
      rw [he, hr, List.append_assoc]
    · intro c hc
      rcases List.mem_append.mp hc with h | h
      · rcases List.mem_cons.mp h with h | h
        · subst h; intro p r' h'; cases h'
        · exact hq c h
      · exact hp c h

theorem baseName_spec (src : Str) :
    ('/' ∉ src ∧ baseName src = src)
      ∨ (∃ pre, src = pre ++ '/' :: baseName src ∧ '/' ∉ baseName src) := by
  induction src with
  | nil => left; simp [baseName]
  | cons c cs ih =>
    by_cases hm : '/' ∈ cs
    · right
      rcases ih with ⟨h, _⟩ | ⟨pre, h1, h2⟩
      · exact absurd hm h
      · refine ⟨c :: pre, ?_, ?_⟩
        · simp only [baseName, hm, if_true, List.cons_append]
          rw [← h1]
        · simpa [baseName, hm] using h2
    · by_cases hc : c = '/'
      · right
        refine ⟨[], ?_, ?_⟩
        · simp [baseName, hm, hc]
        · simp [baseName, hm, hc]
      · left
        refine ⟨?_, by simp [baseName, hm, hc]⟩
        simp only [List.mem_cons, not_or]
        exact ⟨fun h => hc h.symm, hm⟩

theorem cp_file_dest_eq (w : World σ) (src dst : Str) :
    ∃ ext, cp_file_dest K w src dst
        = (effectiveDst K w.fs src dst, K.ut_file_test w.fs (effectiveDst K w.fs src dst),
            { fs := w.fs, log := w.log ++ ext })
      ∧ ∀ c ∈ ext, ∀ p r, c ≠ .fopenW p r ∧ c ≠ .remove p r := by
  unfold cp_file_dest file_test ut_isdir effectiveDst isDirAt
  cases ht : K.ut_file_test w.fs dst with
  | false => exact ⟨[.fileTest dst false], by simp [World.note, ht], by simp⟩
  | true =>
    cases hd : K.stat w.fs dst with
    | err e => exact ⟨[.fileTest dst true, .stat dst none], by simp [World.note, ht, hd], by simp⟩
    | ok m =>
      cases hm : S_ISDIR m with
      | false =>
        exact ⟨[.fileTest dst true, .stat dst (some m)], by simp [World.note, ht, hd, hm], by simp⟩
      | true =>
        cases hs : K.stat w.fs src with
        | err e =>
          exact ⟨[.fileTest dst true, .stat dst (some m), .stat src none,
            .fileTest (dst ++ '/' :: baseName src)
              (K.ut_file_test w.fs (dst ++ '/' :: baseName src))],
            by simp [World.note, ht, hd, hm, hs], by simp⟩
        | ok m2 =>
          cases hm2 : S_ISDIR m2 with
          | false =>
            exact ⟨[.fileTest dst true, .stat dst (some m), .stat src (some m2),
              .fileTest (dst ++ '/' :: baseName src)
                (K.ut_file_test w.fs (dst ++ '/' :: baseName src))],
              by simp [World.note, ht, hd, hm, hs, hm2], by simp⟩
          | true =>
            exact ⟨[.fileTest dst true, .stat dst (some m), .stat src (some m2)],
              by simp [World.note, ht, hd, hm, hs, hm2], by simp⟩
/-- Function `ut_cp_file(src, dst)` works on the effective destination of the spec
(`effectiveDst`): after probes that open and remove nothing, the function is the copy
`cp_file_to` onto that path, with the flag "already present" that `ut_file_test` gives
for it; every stream opened for writing during the call is opened on that path, and
when the path is already present the first call after the probes is its `remove`
(issued by `ut_rm`), before any opening. For a `dst` that exists and is a directory
and a `src` that is not, the effective destination is `dst + "/" + b`, which is not
`dst`; when `dst` is not an existing directory it is `dst`. `b = baseName src` is all
of `src` when it has no `'/'`, and otherwise what follows its last `'/'`. -/
theorem ut_cp_file_effective_destination (fuel : Nat) (w : World σ) (src dst : Str) :
    (∃ probes, (∀ c ∈ probes, ∀ p r, c ≠ .fopenW p r ∧ c ≠ .remove p r)
        ∧ ut_cp_file K fuel w src dst
            = cp_file_to K fuel { fs := w.fs, log := w.log ++ probes } src
                (effectiveDst K w.fs src dst)
                (K.ut_file_test w.fs (effectiveDst K w.fs src dst))
        ∧ ∀ wf, (ut_cp_file K fuel w src dst).world = some wf →
            ∃ ext, wf.log = w.log ++ probes ++ ext
              ∧ (∀ p r, Call.fopenW p r ∈ ext → p = effectiveDst K w.fs src dst)
              ∧ (K.ut_file_test w.fs (effectiveDst K w.fs src dst) = true →
                  ∃ r rest, ext = .remove (effectiveDst K w.fs src dst) r :: rest))
      ∧ (K.ut_file_test w.fs dst = true → isDirAt K w.fs dst = true →
          isDirAt K w.fs src = false →
          effectiveDst K w.fs src dst = dst ++ '/' :: baseName src
            ∧ effectiveDst K w.fs src dst ≠ dst)
      ∧ (¬ (K.ut_file_test w.fs dst = true ∧ isDirAt K w.fs dst = true) →
          effectiveDst K w.fs src dst = dst)
      ∧ (('/' ∉ src ∧ baseName src = src)
          ∨ (∃ pre, src = pre ++ '/' :: baseName src ∧ '/' ∉ baseName src)) := by
  refine ⟨?_, ?_, ?_, baseName_spec src⟩
  · obtain ⟨probes, hd, hp⟩ := cp_file_dest_eq K w src dst
    have heq : ut_cp_file K fuel w src dst
        = cp_file_to K fuel { fs := w.fs, log := w.log ++ probes } src
            (effectiveDst K w.fs src dst)
            (K.ut_file_test w.fs (effectiveDst K w.fs src dst)) := by
      unfold ut_cp_file
      rw [hd]
    refine ⟨probes, hp, heq, ?_⟩
    intro wf hwf
    rw [heq] at hwf
    obtain ⟨ext, he, ho, hr⟩ := cp_file_to_log K fuel _ src _ _ wf hwf
    refine ⟨ext, he, ?_, hr⟩
    intro p r hmem
    exact ho _ hmem p r rfl
  · intro h1 h2 h3
    have : effectiveDst K w.fs src dst = dst ++ '/' :: baseName src := by
      simp [effectiveDst, h1, h2, h3]
    refine ⟨this, ?_⟩
    rw [this]
    intro h
    have := congrArg List.length h
    simp at this
  · intro h
    unfold effectiveDst
    rw [if_neg]
    intro h'
    exact h ⟨h'.1, h'.2.1⟩

end Copy

/-- Witness of `ut_cp_file_effective_destination`: in `fsCopy`, `s` is an existing
directory and `a.txt` is not one, so copying `a.txt` to `s` works on `s/a.txt`;
`s/a.txt` is present and is removed before it is written. -/
theorem ut_cp_file_effective_destination_witness :
    posix.ut_file_test fsCopy "s".data = true ∧ isDirAt posix fsCopy "s".data = true
      ∧ isDirAt posix fsCopy "a.txt".data = false
      ∧ effectiveDst posix fsCopy "a.txt".data "s".data = "s/a.txt".data
      ∧ effectiveDst posix fsCopy "a.txt".data "s".data ≠ "s".data
      ∧ (ut_cp_file posix 1 ⟨fsCopy, []⟩ "a.txt".data "s".data).world
          = some ⟨{ cwd := "/w".data,
                    ents := [("/w".data, .dir 0o755), ("/w/a.txt".data, .file [9] 0o644),
                      ("/w/s".data, .dir 0o755), ("/w/s/a.txt".data, .file [9] 0o644)] },
                  [.fileTest "s".data true, .stat "s".data (some 0o040755),
                   .stat "a.txt".data (some 0o100644), .fileTest "s/a.txt".data true,
                   .remove "s/a.txt".data none, .fopenR "a.txt".data none,
                   .fopenW "s/a.txt".data none, .stat "a.txt".data (some 0o100644), .fread 1,
                   .fwrite (some "/w/s/a.txt".data) [9],
                   .chmod "s/a.txt".data 0o100644 none]⟩ :=
  ⟨by decide, by decide, by decide,
    ((ut_cp_file_effective_destination posix 1 ⟨fsCopy, []⟩ "a.txt".data "s".data).2.1
      (by decide) (by decide) (by decide)).1,
    ((ut_cp_file_effective_destination posix 1 ⟨fsCopy, []⟩ "a.txt".data "s".data).2.1
      (by decide) (by decide) (by decide)).2,
    by decide⟩

section Mkdir

theorem joinPath_snoc (first : Str) (init : List Str) (s : Str) :
    joinPath first (init ++ [s]) = joinPath first init ++ '/' :: s := by
  simp [joinPath, List.foldl_append]

theorem prefixPaths_snoc (init : List Str) (s : Str) :
    ∀ first, prefixPaths first (init ++ [s])
      = prefixPaths first init ++ [joinPath first (init ++ [s])] := by
  induction init with
  | nil => intro first; simp [prefixPaths, joinPath]
  | cons a init ih =>
    intro first
    have h := ih (first ++ '/' :: a)
    show first :: prefixPaths (first ++ '/' :: a) (init ++ [s]) = _
    rw [h]
    simp [prefixPaths, joinPath]

theorem joinPath_mem_prefixPaths (more : List Str) :
    ∀ first, joinPath first more ∈ prefixPaths first more := by
  induction more with
  | nil => intro first; simp [prefixPaths, joinPath]
  | cons a more ih =>
    intro first
    simp only [prefixPaths, List.mem_cons]
    right
    exact ih (first ++ '/' :: a)

theorem length_le_joinPath (more : List Str) :
    ∀ first, first.length ≤ (joinPath first more).length := by
  induction more with
  | nil => intro first; simp [joinPath]
  | cons a more ih =>
    intro first
    have := ih (first ++ '/' :: a)
    simp only [joinPath, List.foldl_cons] at this ⊢
    simp only [List.length_append, List.length_cons] at this
    omega

theorem prefixPaths_length_le (more : List Str) :
    ∀ first, ∀ p ∈ prefixPaths first more, p.length ≤ (joinPath first more).length := by
  induction more with
  | nil => intro first p hp; simp [prefixPaths] at hp; simp [hp, joinPath]
  | cons a more ih =>
    intro first p hp
    simp only [prefixPaths, List.mem_cons] at hp
    rcases hp with rfl | hp
    · exact length_le_joinPath (a :: more) p
    · exact ih _ p hp

theorem joinPath_head (more : List Str) :
    ∀ first, ∃ t, joinPath first more = first ++ t := by
  induction more with
  | nil => intro first; exact ⟨[], by simp [joinPath]⟩
  | cons a more ih =>
    intro first
    obtain ⟨t, ht⟩ := ih (first ++ '/' :: a)
    exact ⟨'/' :: a ++ t, by simp only [joinPath, List.foldl_cons] at ht ⊢; rw [ht]; simp⟩

theorem prefixPaths_head (more : List Str) :
    ∀ first, ∀ p ∈ prefixPaths first more, ∃ t, p = first ++ t := by
  induction more with
  | nil => intro first p hp; simp [prefixPaths] at hp; exact ⟨[], by simp [hp]⟩
  | cons a more ih =>
    intro first p hp
    simp only [prefixPaths, List.mem_cons] at hp
    rcases hp with rfl | hp
    · exact ⟨[], by simp⟩
    · obtain ⟨t, ht⟩ := ih _ p hp
      exact ⟨'/' :: a ++ t, by rw [ht]; simp⟩

theorem cutLastSlash_none (s : Str) (h : '/' ∉ s) : cutLastSlash s = none := by
  induction s with
  | nil => rfl
  | cons c cs ih =>
    simp only [List.mem_cons, not_or] at h
    simp [cutLastSlash, ih h.2, Ne.symm h.1]

theorem cutLastSlash_append (a s : Str) (h : '/' ∉ s) :
    cutLastSlash (a ++ '/' :: s) = some a := by
  induction a with
  | nil => simp [cutLastSlash, cutLastSlash_none s h]
  | cons c cs ih => simp [cutLastSlash, ih]

theorem cutLastSlash_length (name : Str) :
    ∀ pre, cutLastSlash name = some pre → pre.length < name.length := by
  induction name with
  | nil => intro pre h; simp [cutLastSlash] at h
  | cons c cs ih =>
    intro pre h
    simp only [cutLastSlash] at h
    split at h
    · rename_i pre' h'
      simp only [Option.some.injEq] at h
      subst h
      have := ih pre' h'
      simp only [List.length_cons]
      omega
    · split at h
      · simp only [Option.some.injEq] at h
        subst h; simp
      · simp at h

theorem createdDirs_append (l1 l2 : List Call) :
    createdDirs (l1 ++ l2) = createdDirs l1 ++ createdDirs l2 := by
  induction l1 with
  | nil => rfl
  | cons c l ih =>
    cases c with
    | mkdir p r =>
      cases r with
      | none => simp [createdDirs, ih]
      | some e => simp [createdDirs, ih]
    | _ => simp [createdDirs, ih]

/-- Direct creation: the name is reported absent and `mkdir` succeeds. -/
theorem ut_mkdir_direct {σ : Type} (K : Sys σ) (fuel : Nat) (w : World σ) (p : Str) (s' : σ)
    (henv : K.ut_venvparse p = some p) (ht : K.ut_file_test w.fs p = false)
    (hm : K.mkdir w.fs p 0o755 = .ok s') :
    ut_mkdir K (fuel + 1) w p
      = .ret 0 { fs := s', log := w.log ++ [.fileTest p false, .mkdir p none] } := by
  simp [ut_mkdir, henv, file_test, ht, mkdir_create, c_mkdir, World.note, hm]

/-- Creation through the prefix: `mkdir` fails with `ENOENT`, the self-call on the
prefix returns `0`, and the retried `mkdir` succeeds. -/
theorem ut_mkdir_through_prefix {σ : Type} (K : Sys σ) (fuel : Nat) (w w4 : World σ)
    (p q : Str) (s' : σ)
    (henv : K.ut_venvparse p = some p) (ht : K.ut_file_test w.fs p = false)
    (hm : K.mkdir w.fs p 0o755 = .err .ENOENT) (hq : cutLastSlash p = some q)
    (hrec : ut_mkdir K fuel
      { fs := w.fs, log := w.log ++ [.fileTest p false, .mkdir p (some .ENOENT)] } q
        = .ret 0 w4)
    (hm2 : K.mkdir w4.fs p 0o755 = .ok s') :
    ut_mkdir K (fuel + 1) w p = .ret 0 { fs := s', log := w4.log ++ [.mkdir p none] } := by
  simp [ut_mkdir, henv, file_test, ht, mkdir_create, c_mkdir, World.note, hm, hq, hrec, hm2]

theorem lookupEnt_append_none (a b : List (Str × Node)) (q : Str)
    (h : lookupEnt a q = none) : lookupEnt (a ++ b) q = lookupEnt b q := by
  induction a with
  | nil => rfl
  | cons e a ih =>
    obtain ⟨k, n⟩ := e
    simp only [lookupEnt] at h
    split at h
    · simp at h
    · rename_i hk
      simp [lookupEnt, hk, ih h]

theorem lookupEnt_dirs_none (f : Str → Str) (m : Nat) (ps : List Str) (q : Str)
    (h : ∀ p ∈ ps, f p ≠ q) :
    lookupEnt (ps.map (fun p => (f p, Node.dir m))) q = none := by
  induction ps with
  | nil => rfl
  | cons p ps ih =>
    have h1 : f p ≠ q := h p (List.mem_cons_self _ _)
    simp [lookupEnt, h1, ih (fun p' hp' => h p' (List.mem_cons_of_mem _ hp'))]

theorem lookupEnt_dirs_mem (f : Str → Str) (m : Nat) (ps : List Str) (p : Str)
    (h : p ∈ ps) :
    lookupEnt (ps.map (fun p => (f p, Node.dir m))) (f p) = some (Node.dir m) := by
  induction ps with
  | nil => simp at h
  | cons a ps ih =>
    by_cases ha : f a = f p
    · simp [lookupEnt, ha]
    · rcases List.mem_cons.mp h with rfl | h'
      · exact absurd rfl ha
      · simp [lookupEnt, ha, ih h']

/-- A path that starts with a character other than `'/'` is taken below `cwd`. -/
theorem abs_relative (fs : FS) (first t : Str) (hne : first ≠ []) (hs : '/' ∉ first) :
    fs.abs (first ++ t) = fs.cwd ++ '/' :: (first ++ t) := by
  cases first with
  | nil => exact absurd rfl hne
  | cons c cs =>
    simp only [List.mem_cons, not_or] at hs
    have hc : c ≠ '/' := Ne.symm hs.1
    simp only [FS.abs, List.cons_append]
    split
    · rename_i heq
      simp only [List.cons.injEq] at heq
      exact absurd heq.1 hc
    · rfl

theorem get_withDirs (fs : FS) (ps : List Str) (q : Str) (h1 : q ≠ []) (h2 : q ≠ ['/']) :
    (fs.withDirs ps).get q
      = lookupEnt (fs.ents ++ ps.map (fun p => (fs.abs p, Node.dir 0o755))) q := by
  simp [FS.get, FS.withDirs, h1, h2]

theorem get_eq_lookup (fs : FS) (q : Str) (h1 : q ≠ []) (h2 : q ≠ ['/']) :
    fs.get q = lookupEnt fs.ents q := by
  simp [FS.get, h1, h2]

theorem file_test_absent (fs : FS) (p : Str) (h : fs.get (fs.abs p) = none) :
    fs.file_test p = false := by
  have hs : fs.stat p = .err .ENOENT := by
    unfold FS.stat
    split
    · rfl
    · simp [FS.resolve, h]
  simp [FS.file_test, hs]

theorem mkdir_missing_parent (fs : FS) (p d : Str) (mode : Nat) (hp : p ≠ [])
    (h : fs.get (fs.abs p) = none) (hcut : cutLastSlash (fs.abs p) = some d)
    (hd : fs.get d = none) : fs.mkdir p mode = .err .ENOENT := by
  simp [FS.mkdir, hp, h, FS.parentOK, hcut, FS.resolve, hd]

theorem mkdir_creates (fs : FS) (p d : Str) (mode : Nat) (hp : p ≠ [])
    (h : fs.get (fs.abs p) = none) (hcut : cutLastSlash (fs.abs p) = some d)
    (hd : ∃ k m, fs.resolve 40 d = .ok (k, .dir m)) :
    fs.mkdir p mode = .ok { fs with ents := fs.ents ++ [(fs.abs p, .dir mode)] } := by
  obtain ⟨k, m, hd⟩ := hd
  simp [FS.mkdir, hp, h, FS.parentOK, hcut, hd]

theorem below_cwd_ne (cwd p : Str) (hp : p ≠ []) :
    cwd ++ '/' :: p ≠ [] ∧ cwd ++ '/' :: p ≠ ['/'] := by
  constructor
  · simp
  · intro h
    have := congrArg List.length h
    simp only [List.length_append, List.length_cons, List.length_nil] at this
    have : p.length = 0 := by omega
    exact hp (List.length_eq_zero.mp this)

theorem ut_mkdir_chain (env : Str → Option Str) (fs : FS) (first : Str)
    (hne : first ≠ []) (hns : '/' ∉ first)
    (hcwd : ∃ k m, fs.resolve 40 fs.cwd = .ok (k, .dir m)) (more : List Str) :
    ∀ (fuel : Nat) (log : List Call),
      (∀ s ∈ more, '/' ∉ s) →
      (∀ p ∈ prefixPaths first more, env p = some p) →
      (∀ p ∈ prefixPaths first more, fs.get (fs.abs p) = none) →
      more.length + 1 ≤ fuel →
      ∃ lg, ut_mkdir (posixEnv env) fuel ⟨fs, log⟩ (joinPath first more)
          = .ret 0 ⟨fs.withDirs (prefixPaths first more), lg⟩
        ∧ createdDirs lg = createdDirs log ++ prefixPaths first more := by
  induction more using List.reverseRecOn with
  | nil =>
    intro fuel log _ henv habs hfuel
    obtain ⟨f, rfl⟩ : ∃ f, fuel = f + 1 := ⟨fuel - 1, by simp at hfuel; omega⟩
    have hmem : first ∈ prefixPaths first [] := by simp [prefixPaths]
    have hab : fs.abs first = fs.cwd ++ '/' :: first := by
      simpa using abs_relative fs first [] hne hns
    have hcut : cutLastSlash (fs.abs first) = some fs.cwd := by
      rw [hab]; exact cutLastSlash_append _ _ hns
    have hm := mkdir_creates fs first fs.cwd 0o755 hne (habs first hmem) hcut hcwd
    have h := ut_mkdir_direct (posixEnv env) f ⟨fs, log⟩ first _ (henv first hmem)
      (file_test_absent fs first (habs first hmem)) hm
    refine ⟨_, by simpa [joinPath, prefixPaths, FS.withDirs] using h, ?_⟩
    simp [createdDirs_append, createdDirs, prefixPaths]
  | append_singleton init s ih =>
    intro fuel log hmore henv habs hfuel
    obtain ⟨f, rfl⟩ : ∃ f, fuel = f + 1 := ⟨fuel - 1, by omega⟩
    simp only [List.length_append, List.length_singleton] at hfuel
    have hsub : ∀ p ∈ prefixPaths first init, p ∈ prefixPaths first (init ++ [s]) := by
      intro p hp; rw [prefixPaths_snoc]; exact List.mem_append_left _ hp
    have hs : '/' ∉ s := hmore s (by simp)
    -- the path and its prefix
    have hP : joinPath first (init ++ [s]) = joinPath first init ++ '/' :: s :=
      joinPath_snoc first init s
    have hPmem : joinPath first (init ++ [s]) ∈ prefixPaths first (init ++ [s]) :=
      joinPath_mem_prefixPaths _ _
    have hQmem : joinPath first init ∈ prefixPaths first init := joinPath_mem_prefixPaths _ _
    obtain ⟨tQ, htQ⟩ := joinPath_head init first
    have hQne : joinPath first init ≠ [] := by
      rw [htQ]; simp [hne]
    have hPne : joinPath first (init ++ [s]) ≠ [] := by rw [hP]; simp
    have habQ : fs.abs (joinPath first init) = fs.cwd ++ '/' :: joinPath first init := by
      rw [htQ]; exact abs_relative fs first tQ hne hns
    have habP : fs.abs (joinPath first (init ++ [s]))
        = fs.abs (joinPath first init) ++ '/' :: s := by
      rw [habQ, hP, htQ]
      rw [show first ++ tQ ++ '/' :: s = first ++ (tQ ++ '/' :: s) by simp]
      rw [abs_relative fs first _ hne hns]
      simp
    have hcutA : cutLastSlash (fs.abs (joinPath first (init ++ [s])))
        = some (fs.abs (joinPath first init)) := by
      rw [habP]; exact cutLastSlash_append _ _ hs
    have hcut : cutLastSlash (joinPath first (init ++ [s])) = some (joinPath first init) := by
      rw [hP]; exact cutLastSlash_append _ _ hs
    have hm := mkdir_missing_parent fs (joinPath first (init ++ [s]))
      (fs.abs (joinPath first init)) 0o755 hPne (habs _ hPmem) hcutA
      (habs _ (hsub _ hQmem))
    -- the self-call on the prefix
    obtain ⟨lg, hrec, hlg⟩ := ih f
      (log ++ [.fileTest (joinPath first (init ++ [s])) false,
        .mkdir (joinPath first (init ++ [s])) (some .ENOENT)])
      (fun x hx => hmore x (List.mem_append_left _ hx))
      (fun p hp => henv p (hsub p hp)) (fun p hp => habs p (hsub p hp)) (by omega)
    -- the retried mkdir
    have hneP := below_cwd_ne fs.cwd (joinPath first (init ++ [s])) hPne
    have hneQ := below_cwd_ne fs.cwd (joinPath first init) hQne
    have habP' : fs.abs (joinPath first (init ++ [s]))
        = fs.cwd ++ '/' :: joinPath first (init ++ [s]) := by
      rw [habP, habQ, hP]; simp
    have hgetP : FS.get (fs.withDirs (prefixPaths first init))
        (fs.abs (joinPath first (init ++ [s]))) = none := by
      rw [get_withDirs fs _ _ (by rw [habP']; exact hneP.1) (by rw [habP']; exact hneP.2)]
      have h0 := habs _ hPmem
      rw [get_eq_lookup fs _ (by rw [habP']; exact hneP.1) (by rw [habP']; exact hneP.2)] at h0
      rw [lookupEnt_append_none _ _ _ h0]
      apply lookupEnt_dirs_none
      intro p hp heq
      obtain ⟨t, ht⟩ := prefixPaths_head init first p hp
      have hle := prefixPaths_length_le init first p hp
      rw [ht, abs_relative fs first t hne hns, habP', ← ht] at heq
      have := congrArg List.length heq
      simp only [List.length_append, List.length_cons, hP] at this
      omega
    have hresQ : ∃ k m, FS.resolve 40 (fs.withDirs (prefixPaths first init))
        (fs.abs (joinPath first init)) = .ok (k, .dir m) := by
      refine ⟨fs.abs (joinPath first init), 0o755, ?_⟩
      have h0 := habs _ (hsub _ hQmem)
      rw [get_eq_lookup fs _ (by rw [habQ]; exact hneQ.1) (by rw [habQ]; exact hneQ.2)] at h0
      have hget : FS.get (fs.withDirs (prefixPaths first init))
          (fs.abs (joinPath first init)) = some (Node.dir 0o755) := by
        rw [get_withDirs fs _ _ (by rw [habQ]; exact hneQ.1) (by rw [habQ]; exact hneQ.2)]
        rw [lookupEnt_append_none _ _ _ h0]
        exact lookupEnt_dirs_mem fs.abs 0o755 _ _ hQmem
      simp [FS.resolve, hget]
    have hm2 := mkdir_creates (fs.withDirs (prefixPaths first init))
      (joinPath first (init ++ [s])) (fs.abs (joinPath first init)) 0o755 hPne hgetP hcutA hresQ
    have h := ut_mkdir_through_prefix (posixEnv env) f ⟨fs, log⟩ _
      (joinPath first (init ++ [s])) (joinPath first init) _ (henv _ hPmem)
      (file_test_absent fs _ (habs _ hPmem)) hm hcut hrec hm2
    refine ⟨lg ++ [.mkdir (joinPath first (init ++ [s])) none], ?_, ?_⟩
    · rw [h]
      congr 1
      rw [prefixPaths_snoc]
      simp [FS.abs, FS.withDirs]
    · rw [createdDirs_append, hlg, createdDirs_append, prefixPaths_snoc]
      simp [createdDirs]


theorem prefixPaths_length (more : List Str) :
    ∀ first, (prefixPaths first more).length = more.length + 1 := by
  induction more with
  | nil => intro first; simp [prefixPaths]
  | cons a more ih => intro first; simp [prefixPaths, ih]

theorem prefixPaths_nodup (more : List Str) : ∀ first, (prefixPaths first more).Nodup := by
  induction more with
  | nil => intro first; simp [prefixPaths]
  | cons a more ih =>
    intro first
    simp only [prefixPaths, List.nodup_cons]
    refine ⟨?_, ih _⟩
    intro hmem
    obtain ⟨t, ht⟩ := prefixPaths_head more (first ++ '/' :: a) first hmem
    have := congrArg List.length ht
    simp only [List.length_append, List.length_cons] at this
    omega

/-- C10. In the reference file system, for a relative path `first/s2/.../sn` whose
segments contain no `'/'` (`first` non-empty), none of whose prefixes exists, below
an existing working directory, and with format strings that stand for themselves:
`ut_mkdir` returns `0` for every fuel from `n` on (`n` nested calls suffice), the
resulting state is the initial one with the directories `first`, `first/s2`, ...,
`first/s2/.../sn` added in that order, and the successful `mkdir` calls of the run are
exactly these paths, shortest first and each once. The self-call is made on the name
cut at its last `'/'`, a strictly shorter string. -/
theorem ut_mkdir_recursive (env : Str → Option Str) (fs : FS) (log : List Call)
    (first : Str) (more : List Str) (fuel : Nat)
    (hfirst : first ≠ [] ∧ '/' ∉ first) (hmore : ∀ s ∈ more, s ≠ [] ∧ '/' ∉ s)
    (henv : ∀ p ∈ prefixPaths first more, env p = some p)
    (habsent : ∀ p ∈ prefixPaths first more, fs.get (fs.abs p) = none)
    (hcwd : ∃ k m, fs.resolve 40 fs.cwd = .ok (k, .dir m))
    (hfuel : more.length + 1 ≤ fuel) :
    (∃ lg, ut_mkdir (posixEnv env) fuel ⟨fs, log⟩ (joinPath first more)
          = .ret 0 ⟨fs.withDirs (prefixPaths first more), lg⟩
        ∧ createdDirs lg = createdDirs log ++ prefixPaths first more)
      ∧ (prefixPaths first more).Nodup
      ∧ (prefixPaths first more).length = more.length + 1
      ∧ (∀ name pre, cutLastSlash name = some pre → pre.length < name.length) := by
  refine ⟨ut_mkdir_chain env fs first hfirst.1 hfirst.2 hcwd more fuel log
    (fun s hs => (hmore s hs).2) henv habsent hfuel, prefixPaths_nodup more first,
    prefixPaths_length more first, cutLastSlash_length⟩

end Mkdir

/-- Witness of `ut_mkdir_recursive`, the example of the spec: `mkdir("a/b/c")` in a
working directory that has none of `a`, `a/b`, `a/b/c` creates them in that order. -/
theorem ut_mkdir_recursive_witness :
    (∀ p ∈ prefixPaths "a".data ["b".data, "c".data],
        fsDangling.get (fsDangling.abs p) = none)
      ∧ ∃ lg, ut_mkdir posix 3 ⟨fsDangling, []⟩ "a/b/c".data
          = .ret 0 ⟨fsDangling.withDirs ["a".data, "a/b".data, "a/b/c".data], lg⟩
        ∧ createdDirs lg = ["a".data, "a/b".data, "a/b/c".data] :=
  ⟨by decide,
    (ut_mkdir_recursive some fsDangling [] "a".data ["b".data, "c".data] 3
      (by decide) (by decide) (by decide) (by decide)
      ⟨"/w".data, 0o755, by decide⟩ (by decide)).1⟩

/-! ### The directory stack across `ut_dir_collectRecursive` -/

section Balance
variable {σ : Type} (K : Sys σ)

end Balance

section Perm
variable {σ : Type} (K : Sys σ)

end Perm

section PermModel

end PermModel

section PermMain

theorem abs_withDirs (fs : FS) (ps : List Str) (p : Str) : (fs.withDirs ps).abs p = fs.abs p :=
  rfl

theorem st_mode_file (c : List Nat) (m : Nat) :
    (Node.file c ((0o100000 + m % 4096) % 4096)).st_mode = (Node.file c m).st_mode := by
  simp only [Node.st_mode]
  omega

end PermMain

/-- On plain path names the walking instance and the literal one agree: the copy of
`a.txt` into the directory `s` of `fsCopy`, and the recursive `mkdir("a/b/c")`. -/
theorem walk_agrees_on_plain_paths :
    ut_cp_file walk 1 ⟨fsCopy, []⟩ "a.txt".data "s".data
        = ut_cp_file posix 1 ⟨fsCopy, []⟩ "a.txt".data "s".data
      ∧ ut_mkdir walk 3 ⟨fsDangling, []⟩ "a/b/c".data
        = ut_mkdir posix 3 ⟨fsDangling, []⟩ "a/b/c".data
      ∧ ut_mkdir walk 1 ⟨fsDangling, []⟩ "l".data = ut_mkdir posix 1 ⟨fsDangling, []⟩ "l".data := by
  refine ⟨?_, ?_, ?_⟩
  · decide
  · decide
  · decide

section Frame

end Frame

section Spare

variable (env : Str → Option Str) (cwd k e : Str)

theorem spares_step {w wf : World FS} {c : Call} (hk : KeepsDir cwd k wf.fs)
    (hl : wf.log = w.log ++ [c]) (hc : Tame e c) : Spares cwd k e w wf :=
  ⟨hk, [c], hl, by simpa using hc⟩

theorem spares_note (w : World FS) {c : Call} (hk : KeepsDir cwd k w.fs) (hc : Tame e c) :
    Spares cwd k e w (w.note c) :=
  spares_step cwd k e hk rfl hc

theorem spares_file_test (w : World FS) (path : Str) (hk : KeepsDir cwd k w.fs) :
    Spares cwd k e w (file_test (posixEnv env) w path).2 :=
  spares_note cwd k e w hk ⟨by simp, by simp⟩

end Spare

section SpareCopy

variable (env : Str → Option Str) (cwd k e : Str)

end SpareCopy

section SpareOpen

variable (env : Str → Option Str) (cwd k e : Str)

end SpareOpen

end Bake
